import Mathlib

/-!
Verification of the line-based edit engine of the `edit-lines` repository.

Strings are modelled as `List Char` (JavaScript strings restricted to the
code points the engine manipulates).  The two generations of `FileEditor`
found in `src/utils/fileEditor.ts` are embedded in namespaces `V2`
(the range-based editor: constructor, `validateRange`, `validateEdits`,
`applyMatchReplace`, `applyEdits`, `editFile`) and `V1` (the action-based
editor: `addEdit`, `normalizeLegacyEdit`, `applyEdits`).  The state cache of
`src/utils/stateManager.ts` and `src/utils/approveEdit.ts` is embedded in
namespace `SM`.  External collaborators (the JavaScript `RegExp` engine and
`crypto.createHash`) are either modelled on the fragment actually used
(`Rx`) or taken as parameters.
-/

namespace JsStr

/-- Whitespace recognised by JavaScript `trim`/`\s` on the ASCII fragment the
engine manipulates: space, tab, newline, carriage return, vertical tab and
form feed. -/
def isWs (c : Char) : Bool :=
  c = ' ' || c = '\t' || c = '\n' || c = '\r' || c = '\x0b' || c = '\x0c'

/-- JavaScript `String.prototype.trimStart`. -/
def trimStart (s : List Char) : List Char := s.dropWhile isWs

/-- JavaScript `String.prototype.trimEnd`. -/
def trimEnd (s : List Char) : List Char := (s.reverse.dropWhile isWs).reverse

/-- JavaScript `String.prototype.trim`. -/
def trim (s : List Char) : List Char := trimEnd (trimStart s)

/-- JavaScript `a.startsWith(b)` on char lists. -/
def startsWith : List Char → List Char → Bool
  | _, [] => true
  | [], _ :: _ => false
  | c :: cs, d :: ds => c = d && startsWith cs ds

/-- JavaScript `hay.includes(needle)`. -/
def containsSub (hay needle : List Char) : Bool :=
  if startsWith hay needle then true
  else
    match hay with
    | [] => false
    | _ :: t => containsSub t needle

/-- JavaScript `s.replace(/\s+/g, rep)`: replace every maximal whitespace run
by the fixed text `rep`.  `inRun` records whether the previous character was
part of a whitespace run already replaced. -/
def replaceWsRunsAux (rep : List Char) (inRun : Bool) : List Char → List Char
  | [] => []
  | c :: cs =>
    if isWs c then
      if inRun then replaceWsRunsAux rep true cs
      else rep ++ replaceWsRunsAux rep true cs
    else c :: replaceWsRunsAux rep false cs

/-- JavaScript `s.replace(/\s+/g, " ")`: collapse every whitespace run to a
single space. -/
def collapseWs (s : List Char) : List Char := replaceWsRunsAux [' '] false s

/-- JavaScript `s.replace(/\s+/g, "\\s+")`: turn every whitespace run into the
regex source text `\s+`. -/
def wsToFlexPattern (s : List Char) : List Char :=
  replaceWsRunsAux ['\\', 's', '+'] false s

/-- Model of `content.split("\n")`. -/
def splitNl : List Char → List (List Char)
  | [] => [[]]
  | c :: cs =>
    if c = '\n' then [] :: splitNl cs
    else
      match splitNl cs with
      | [] => [[c]]
      | l :: ls => (c :: l) :: ls

/-- Model of `chunks.join("\n")`. -/
def joinNl : List (List Char) → List Char
  | [] => []
  | [l] => l
  | l :: l' :: ls => l ++ '\n' :: joinNl (l' :: ls)

/-- Modelled from the spec: the helper `normalizeLineEndings` is imported by
`fileEditor.ts` from a `utils.ts` module that is not part of the sources;
per §4.1 of the spec, `Build` "normalizes all line endings to a single
convention", i.e. every CRLF pair becomes a bare LF. -/
def normalizeLineEndings : List Char → List Char
  | [] => []
  | '\r' :: '\n' :: cs => '\n' :: normalizeLineEndings cs
  | c :: cs => c :: normalizeLineEndings cs

/-- Decimal rendering of a line number, as JavaScript template literals
produce it. -/
def natChars (n : Nat) : List Char := (Nat.repr n).data

end JsStr

namespace Rx

/-- A regex atom of the fragment of JavaScript `RegExp` this development
needs: a literal character, the `.` wildcard, or the `\s` whitespace class. -/
inductive RAtom where
  | lit (c : Char)
  | dot
  | ws
deriving DecidableEq

/-- A piece of a compiled pattern: an atom matched once, or an atom under a
greedy `*`. -/
inductive RPiece where
  | once (a : RAtom)
  | star (a : RAtom)
deriving DecidableEq

def atomMatches : RAtom → Char → Bool
  | .lit c, d => c = d
  | .dot, d => d ≠ '\n'
  | .ws, d => JsStr.isWs d

/-- Compile a pattern source string of the supported fragment: plain
characters, `.`, `\s`, identity escapes `\c`, and the postfix quantifiers
`*` and `+` (with `x+` compiled as `x` followed by `x*`). -/
def compile : List Char → List RPiece
  | [] => []
  | '\\' :: 's' :: '*' :: rest => .star .ws :: compile rest
  | '\\' :: 's' :: '+' :: rest => .once .ws :: .star .ws :: compile rest
  | '\\' :: 's' :: rest => .once .ws :: compile rest
  | '\\' :: c :: '*' :: rest => .star (.lit c) :: compile rest
  | '\\' :: c :: '+' :: rest => .once (.lit c) :: .star (.lit c) :: compile rest
  | '\\' :: c :: rest => .once (.lit c) :: compile rest
  | '.' :: '*' :: rest => .star .dot :: compile rest
  | '.' :: '+' :: rest => .once .dot :: .star .dot :: compile rest
  | '.' :: rest => .once .dot :: compile rest
  | c :: '*' :: rest => .star (.lit c) :: compile rest
  | c :: '+' :: rest => .once (.lit c) :: .star (.lit c) :: compile rest
  | c :: rest => .once (.lit c) :: compile rest

/-- Greedy backtracking for a starred atom: try consuming `j` repetitions,
largest first, then hand the remainder to the continuation `f`. -/
def tryStar (f : List Char → Option Nat) (cs : List Char) : Nat → Option Nat
  | 0 => f cs
  | j + 1 =>
    match f (cs.drop (j + 1)) with
    | some n => some (j + 1 + n)
    | none => tryStar f cs j

/-- Number of leading characters matching atom `a`. -/
def countLeading (a : RAtom) : List Char → Nat
  | [] => 0
  | c :: cs => if atomMatches a c then countLeading a cs + 1 else 0

/-- Match a piece list at the head of `cs`, returning the number of
characters consumed (JavaScript backtracking semantics, greedy `*`).
`fuel` bounds the recursion; `pieces.length + 1` always suffices. -/
def matchPiecesF : Nat → List RPiece → List Char → Option Nat
  | 0, _, _ => none
  | _ + 1, [], _ => some 0
  | fuel + 1, .once a :: ps, cs =>
    match cs with
    | [] => none
    | c :: cs' =>
      if atomMatches a c then (matchPiecesF fuel ps cs').map (· + 1) else none
  | fuel + 1, .star a :: ps, cs =>
    tryStar (matchPiecesF fuel ps) cs (countLeading a cs)

def matchPieces (ps : List RPiece) (cs : List Char) : Option Nat :=
  matchPiecesF (ps.length + 1) ps cs

/-- First match of a compiled pattern in `s`, as (index, length) — the
result of JavaScript `s.match(re)` / `re.exec(s)` for the fragment. -/
def firstMatchFrom (ps : List RPiece) : List Char → Nat → Option (Nat × Nat)
  | s, i =>
    match matchPieces ps s with
    | some n => some (i, n)
    | none =>
      match s with
      | [] => none
      | _ :: t => firstMatchFrom ps t (i + 1)

/-- JavaScript `s.match(new RegExp(p))` restricted to index and matched
length, for the supported pattern fragment. -/
def jsMatch (p : List Char) (s : List Char) : Option (Nat × Nat) :=
  firstMatchFrom (compile p) s 0

/-- JavaScript `new RegExp(p).test(s)`. -/
def jsTest (p : List Char) (s : List Char) : Bool := (jsMatch p s).isSome

/-- A matcher abstracts the JavaScript `RegExp` engine: pattern source and
subject in, index and length of the first match out.  The engine of this
file (`jsMatch`) is one instance; theorems quantified over a matcher hold
for the real engine as well. -/
abbrev Matcher : Type := List Char → List Char → Option (Nat × Nat)

/-- JavaScript `s.replace(re, repl)` with a non-global regex: replace the
first match only (replacement taken literally; no `$`-templates occur in
the inputs this development gives a plain-string replacement). -/
def replaceFirstWith (rx : Matcher) (p s repl : List Char) : List Char :=
  match rx p s with
  | none => s
  | some (i, n) => s.take i ++ repl ++ s.drop (i + n)

/-- JavaScript `s.replace(re, repl)` with a global regex: replace every
match, advancing one character past a zero-length match as the `String`
`replace` algorithm does. `fuel` bounds the iteration; `s.length + 1`
always suffices. -/
def replaceGlobalWithF (rx : Matcher) (p repl : List Char) : Nat → List Char → List Char
  | 0, s => s
  | fuel + 1, s =>
    match rx p s with
    | none => s
    | some (i, n) =>
      if n = 0 then
        match s.drop i with
        | [] => s.take i ++ repl
        | c :: rest => s.take i ++ repl ++ c :: replaceGlobalWithF rx p repl fuel rest
      else
        s.take i ++ repl ++ replaceGlobalWithF rx p repl fuel (s.drop (i + n))

def replaceGlobalWith (rx : Matcher) (p s repl : List Char) : List Char :=
  replaceGlobalWithF rx p repl (s.length + 1) s

def replaceFirst (p s repl : List Char) : List Char :=
  replaceFirstWith jsMatch p s repl

def replaceGlobal (p s repl : List Char) : List Char :=
  replaceGlobalWith jsMatch p s repl

end Rx

instance exceptDecEq {ε α : Type} [DecidableEq ε] [DecidableEq α] :
    DecidableEq (Except ε α) := fun x y =>
  match x, y with
  | .ok a, .ok b =>
    if h : a = b then .isTrue (by rw [h]) else .isFalse (by simp [h])
  | .error a, .error b =>
    if h : a = b then .isTrue (by rw [h]) else .isFalse (by simp [h])
  | .ok _, .error _ => .isFalse (by simp)
  | .error _, .ok _ => .isFalse (by simp)

/-- JavaScript truthiness of an optional string field: present and
non-empty. -/
def jsTruthy : Option (List Char) → Bool
  | some s => s ≠ []
  | none => false

/-- Model of `Array.prototype.splice(start, deleteCount, ...items)`. -/
def splice {α : Type} (l : List α) (start cnt : Nat) (items : List α) : List α :=
  l.take start ++ items ++ l.drop (start + cnt)

/-- Model of `Map.set` on an association list: update the first occurrence of the key
in place or append. -/
def mapSet {κ β : Type} [DecidableEq κ] : List (κ × β) → κ → β → List (κ × β)
  | [], k, v => [(k, v)]
  | (k', v') :: t, k, v =>
    if k' = k then (k, v) :: t else (k', v') :: mapSet t k v

/-- Model of `Map.get` on an association list. -/
def mapGet {κ β : Type} [DecidableEq κ] : List (κ × β) → κ → Option β
  | [], _ => none
  | (k', v) :: t, k => if k' = k then some v else mapGet t k

/-- Model of `Map.delete` on an association list; a `Map` holds each key at most
once, so removal is modelled by filtering the key out, and deleting an
absent key is a no-op. -/
def mapErase {κ β : Type} [DecidableEq κ] (m : List (κ × β)) (k : κ) :
    List (κ × β) :=
  m.filter (fun p => decide (p.1 ≠ k))

/-- Model of `Array.prototype.find` combined with `indexOf`: the index of the first
element satisfying `p`. -/
def listFindIdx {α : Type} (p : α → Bool) : List α → Option Nat
  | [] => none
  | x :: xs => if p x then some 0 else (listFindIdx p xs).map (· + 1)

/-- Number of entries an association list stores under key `k`. -/
def countKey {κ β : Type} [DecidableEq κ] (m : List (κ × β)) (k : κ) : Nat :=
  (m.filter (fun p => decide (p.1 = k))).length

namespace V2

open JsStr

/-- Model of `EditOperation` of `types/editTypes.ts` (range-based version): a line
range, replacement content, and optional exact-string or regex match
condition.  Line numbers are the schema's positive integers, as `Nat`. -/
structure Edit where
  startLine : Nat
  endLine : Nat
  content : List Char
  strMatch : Option (List Char) := none
  regexMatch : Option (List Char) := none
deriving DecidableEq

/-- Model of `LineMetadata` of the range-based `FileEditor`. -/
structure LineMeta where
  content : List Char
  indentation : List Char
  originalIndex : Nat
deriving DecidableEq

/-- The errors thrown by `FileEditor`; `message` renders each to the text
the source interpolates. -/
inductive Err where
  | rangeStartGtEnd (s e : Nat)
  | rangeOutOfBounds (total s e : Nat)
  | overlap (line : Nat) (p1 p2 : List Char)
  | multiNonRegex (line : Nat)
  | matchNotFound (line : Nat) (m : List Char) (isRegex : Bool)
deriving DecidableEq

def message : Err → List Char
  | .rangeStartGtEnd s e =>
    ("Invalid range: start line ").data ++ natChars s ++
      (" is greater than end line ").data ++ natChars e
  | .rangeOutOfBounds total s e =>
    ("Invalid line range: file has ").data ++ natChars total ++
      (" lines but range is ").data ++ natChars s ++ ("-").data ++ natChars e
  | .overlap line p1 p2 =>
    ("Overlapping regex patterns on line ").data ++ natChars line ++
      (": \"").data ++ p1 ++ ("\" and \"").data ++ p2 ++ ("\"").data
  | .multiNonRegex line =>
    ("Line ").data ++ natChars line ++
      (" is affected by multiple non-regex edits").data
  | .matchNotFound line m isRegex =>
    ("No ").data ++ (if isRegex then ("regex").data else ("string").data) ++
      (" match found for \"").data ++ m ++ ("\" on line ").data ++ natChars line

/-- Model of `line.substring(0, line.length - line.trimStart().length)`: the
indentation prefix of a raw line. -/
def indentOf (l : List Char) : List Char :=
  l.take (l.length - (trimStart l).length)

/-- Decompose already-split raw lines into `LineMetadata`, numbering
`originalIndex` from `i`. -/
def buildAux : Nat → List (List Char) → List LineMeta
  | _, [] => []
  | i, l :: ls => ⟨trimStart l, indentOf l, i⟩ :: buildAux (i + 1) ls

/-- The `FileEditor` constructor: normalize line endings, split on `\n`,
decompose each line into trimmed content plus indentation. -/
def buildLines (content : List Char) : List LineMeta :=
  buildAux 0 (splitNl (normalizeLineEndings content))

/-- Final rendering of `applyEdits`: `indentation + content` per line,
joined by `\n`. -/
def renderLines (ls : List LineMeta) : List Char :=
  joinNl (ls.map fun l => l.indentation ++ l.content)

/-- Model of `FileEditor.validateRange`. -/
def validateRange (total : Nat) (e : Edit) : Except Err Unit :=
  if e.startLine > e.endLine then .error (.rangeStartGtEnd e.startLine e.endLine)
  else if e.startLine < 1 || e.endLine > total then
    .error (.rangeOutOfBounds total e.startLine e.endLine)
  else .ok ()

/-- Field normalization performed by `addEdit` after the range check: line
endings of truthy `content` and `strMatch` are normalized. -/
def normalizeEdit (e : Edit) : Edit :=
  { e with
    content := if e.content ≠ [] then normalizeLineEndings e.content else e.content
    strMatch :=
      match e.strMatch with
      | some s => some (if s ≠ [] then normalizeLineEndings s else s)
      | none => none }

/-- Model of `FileEditor.addEdit`: range-validate, normalize, push. -/
def addEdit (total : Nat) (acc : List Edit) (e : Edit) : Except Err (List Edit) :=
  match validateRange total e with
  | .error err => .error err
  | .ok _ => .ok (acc ++ [normalizeEdit e])

/-- The `addEdit` loop of `editFile`. -/
def addEdits (total : Nat) : List Edit → List Edit → Except Err (List Edit)
  | acc, [] => .ok acc
  | acc, e :: rest =>
    match addEdit total acc e with
    | .error err => .error err
    | .ok acc' => addEdits total acc' rest

/-- The interval test of `validateEdits`, verbatim from the source:
`(start1 <= start2 && end1 > start2) || (start2 <= start1 && end2 > start1)`.
-/
def overlapCond (s1 e1 s2 e2 : Nat) : Bool :=
  (decide (s1 ≤ s2) && decide (e1 > s2)) || (decide (s2 ≤ s1) && decide (e2 > s1))

/-- The inner loop of `validateEdits` over the edits already occupying the
line: the current regex-conditioned edit is compared against every earlier
edit whose `regexMatch` is truthy (occupants with an absent or empty
pattern are skipped); both patterns are run against the line content and
the matched `[start, start + length)` intervals are tested for overlap. -/
def checkRegexOverlaps (rx : Rx.Matcher) (lineContent : List Char) (line : Nat)
    (p : List Char) : List Edit → Except Err Unit
  | [] => .ok ()
  | ex :: rest =>
    if jsTruthy ex.regexMatch then
      (match rx p lineContent, rx (ex.regexMatch.getD []) lineContent with
       | some (s1, l1), some (s2, l2) =>
         if overlapCond s1 (s1 + l1) s2 (s2 + l2) then
           .error (.overlap line p (ex.regexMatch.getD []))
         else checkRegexOverlaps rx lineContent line p rest
       | _, _ => checkRegexOverlaps rx lineContent line p rest)
    else checkRegexOverlaps rx lineContent line p rest

/-- The per-line checks of `validateEdits` against the edits already
occupying the line: a truthy-regex edit is checked for span overlap against
the occupants; an edit whose `regexMatch` is falsy (absent or the empty
string) is a hard error as soon as an occupant with a falsy `regexMatch`
exists. -/
def lineStep (rx : Rx.Matcher) (lines : List LineMeta) (existing : List Edit)
    (e : Edit) (line : Nat) : Except Err Unit :=
  if jsTruthy e.regexMatch then
    checkRegexOverlaps rx (lines.getD (line - 1) ⟨[], [], 0⟩).content line
      (e.regexMatch.getD []) existing
  else
    if existing.length > 0 &&
        (existing.filter (fun x => !jsTruthy x.regexMatch)).length > 0 then
      .error (.multiNonRegex line)
    else .ok ()

/-- One `line` iteration of `validateEdits` for edit `e`: run the per-line
checks, then add `e` to the occupancy set of the line. -/
def checkLine (rx : Rx.Matcher) (lines : List LineMeta) (m : Nat → List Edit)
    (e : Edit) (line : Nat) : Except Err (Nat → List Edit) :=
  match lineStep rx lines (m line) e line with
  | .error err => .error err
  | .ok _ => .ok (fun l => if l = line then m line ++ [e] else m l)

/-- The lines an edit occupies: `startLine .. endLine`. -/
def lineSpan (e : Edit) : List Nat :=
  List.range' e.startLine (e.endLine + 1 - e.startLine)

def checkLinesGo (rx : Rx.Matcher) (lines : List LineMeta) (e : Edit) :
    (Nat → List Edit) → List Nat → Except Err (Nat → List Edit)
  | m, [] => .ok m
  | m, line :: rest =>
    match checkLine rx lines m e line with
    | .error err => .error err
    | .ok m' => checkLinesGo rx lines e m' rest

def checkEdit (rx : Rx.Matcher) (lines : List LineMeta) (m : Nat → List Edit)
    (e : Edit) : Except Err (Nat → List Edit) :=
  checkLinesGo rx lines e m (lineSpan e)

def validateAux (rx : Rx.Matcher) (lines : List LineMeta) :
    (Nat → List Edit) → List Edit → Except Err Unit
  | _, [] => .ok ()
  | m, e :: rest =>
    match checkEdit rx lines m e with
    | .error err => .error err
    | .ok m' => validateAux rx lines m' rest

/-- Model of `FileEditor.validateEdits`: the full occupancy / overlap pass over the
edit batch, run against the original lines before any mutation. -/
def validateEdits (rx : Rx.Matcher) (lines : List LineMeta) (edits : List Edit) :
    Except Err Unit :=
  validateAux rx lines (fun _ => []) edits

/-- Model of `FileEditor.getIndentationLevel`: length of the `^(\s*)` prefix. -/
def getIndentationLevel (s : List Char) : Nat := (s.takeWhile isWs).length

/-- Model of `FileEditor.preserveIndentation`: re-base the relative indentation of
every line of `newContent` onto `originalIndentation`. -/
def preserveIndentation (newContent originalIndentation : List Char) : List Char :=
  let lines := splitNl newContent
  let baseIndentLevel := getIndentationLevel (lines.headD [])
  joinNl (lines.map fun line =>
    let lineIndentLevel := getIndentationLevel line
    originalIndentation ++ List.replicate (lineIndentLevel - baseIndentLevel) ' ' ++
      trimStart line)

def isWordChar (c : Char) : Bool := c.isAlphanum || c = '_'

/-- The named-group replacer of the regex branch when the replacement text
contains a template: `edit.content.replace(/\$\{(\w+)\}/g, ...)` with every
group reference resolving to the empty string (the supported pattern
fragment defines no named groups).  `fuel` bounds the scan. -/
def stripTemplatesF : Nat → List Char → List Char
  | 0, s => s
  | _ + 1, [] => []
  | fuel + 1, '$' :: '\x7b' :: rest =>
    let w := rest.takeWhile isWordChar
    if w ≠ [] ∧ rest.drop w.length ≠ [] ∧ (rest.drop w.length).headD ' ' = '\x7d' then
      stripTemplatesF fuel (rest.drop (w.length + 1))
    else '$' :: stripTemplatesF fuel ('\x7b' :: rest)
  | fuel + 1, c :: rest => c :: stripTemplatesF fuel rest

def stripTemplates (s : List Char) : List Char := stripTemplatesF (s.length + 1) s

def templateMarker : List Char := ['$', '\x7b']

/-- Model of `FileEditor.applyMatchReplace`: replace the whole line when no condition
is present; otherwise locate the exact-string condition in the trimmed line
content (with a whitespace-collapsed fallback) or test the regex condition
against the line content, and throw `MatchNotFoundError` on failure. -/
def applyMatchReplace (rx : Rx.Matcher) (lm : LineMeta) (e : Edit)
    (lineNumber : Nat) : Except Err (List Char) :=
  let content := lm.content
  let indentation := lm.indentation
  if ¬jsTruthy e.strMatch ∧ ¬jsTruthy e.regexMatch then
    .ok (preserveIndentation e.content indentation)
  else if jsTruthy e.strMatch then
    let s := e.strMatch.getD []
    let normalizedContent := trim content
    let normalizedMatch := trim s
    if ¬containsSub normalizedContent normalizedMatch then
      let flexMatch := collapseWs normalizedContent
      let flexTarget := collapseWs normalizedMatch
      if ¬containsSub flexMatch flexTarget then
        .error (.matchNotFound lineNumber s false)
      else
        let newContent :=
          Rx.replaceFirstWith rx (wsToFlexPattern flexMatch) content e.content
        .ok (indentation ++ trimStart newContent)
    else
      let newContent :=
        Rx.replaceGlobalWith rx (trim s) content e.content
      .ok (indentation ++ trimStart newContent)
  else if jsTruthy e.regexMatch then
    let p := e.regexMatch.getD []
    if (rx p content).isNone then
      .error (.matchNotFound lineNumber p true)
    else
      let repl :=
        if containsSub e.content templateMarker then stripTemplates e.content
        else e.content
      let newContent := Rx.replaceGlobalWith rx p content repl
      .ok (indentation ++ trimStart newContent)
  else .ok (indentation ++ content)

/-- One per-request record of the range-based editor
(`EditOperationResult` of the range-based `editTypes.ts`). -/
structure R2 where
  applied : Bool
  lineContent : List Char
deriving DecidableEq

/-- Stable insertion into a list sorted by descending `startLine`; the
insertion point is before the first entry with a key not larger, which is
exactly where the ES2019 stable `Array.sort` with comparator
`(a, b) => b.startLine - a.startLine` places it. -/
def insertDesc (e : Edit) : List Edit → List Edit
  | [] => [e]
  | x :: xs =>
    if x.startLine ≤ e.startLine then e :: x :: xs else x :: insertDesc e xs

/-- Model of `[...edits].sort((a, b) => b.startLine - a.startLine)`. -/
def sortEditsDesc (es : List Edit) : List Edit := es.foldr insertDesc []

/-- The result records written for a multi-line replacement: one per line of
the original range. -/
def multiResults (results : List (Nat × R2)) (startLine endLine : Nat)
    (newLines : List LineMeta) : List (Nat × R2) :=
  (List.range' startLine (endLine + 1 - startLine)).foldl
    (fun res i =>
      mapSet res i
        ⟨true,
          if i ≤ startLine + newLines.length - 1 then
            (newLines.getD (i - startLine) ⟨[], [], 0⟩).indentation ++
              (newLines.getD (i - startLine) ⟨[], [], 0⟩).content
          else []⟩)
    results

/-- One iteration of the `applyEdits` loop over the sorted edits. -/
def applyStep (rx : Rx.Matcher) (st : List LineMeta × List (Nat × R2))
    (e : Edit) : Except Err (List LineMeta × List (Nat × R2)) :=
  let modifiedLines := st.1
  let results := st.2
  let startIdx := e.startLine - 1
  let endIdx := e.endLine - 1
  if e.startLine = e.endLine ∧ (jsTruthy e.strMatch ∨ jsTruthy e.regexMatch) then
    let lm := modifiedLines.getD startIdx ⟨[], [], 0⟩
    match applyMatchReplace rx lm e e.startLine with
    | .error err => .error err
    | .ok newContent =>
      .ok
        (modifiedLines.set startIdx
          ⟨trimStart newContent, indentOf newContent, lm.originalIndex⟩,
         mapSet results e.startLine ⟨true, newContent⟩)
  else
    let firstLineIndentation := (modifiedLines.getD startIdx ⟨[], [], 0⟩).indentation
    let newContent := preserveIndentation e.content firstLineIndentation
    let newLines :=
      buildAux (modifiedLines.getD startIdx ⟨[], [], 0⟩).originalIndex
        (splitNl newContent)
    .ok
      (splice modifiedLines startIdx (endIdx - startIdx + 1) newLines,
       multiResults results e.startLine e.endLine newLines)

def applyGo (rx : Rx.Matcher) :
    List LineMeta × List (Nat × R2) → List Edit →
    Except Err (List LineMeta × List (Nat × R2))
  | st, [] => .ok st
  | st, e :: rest =>
    match applyStep rx st e with
    | .error err => .error err
    | .ok st' => applyGo rx st' rest

/-- Model of `FileEditor.applyEdits`: validate the whole batch, sort the edits in
descending `startLine` order, apply each, and render the modified lines.
The outcome map recorded in the `catch` block is not observable on the
error path (the exception is re-thrown and `editFile` propagates it), so
only the success outcomes are carried. -/
def applyEdits (rx : Rx.Matcher) (lines : List LineMeta) (edits : List Edit) :
    Except Err (List Char × List (Nat × R2)) :=
  match validateEdits rx lines edits with
  | .error err => .error err
  | .ok _ =>
    match applyGo rx (lines, []) (sortEditsDesc edits) with
    | .error err => .error err
    | .ok (modifiedLines, results) => .ok (renderLines modifiedLines, results)

/-- Model of `editFile` of the range-based editor, as a function from the current
file content to the written content: read, build, add the edits (a range
error propagates raw — the `addEdit` loop runs outside the `try`), apply
(a `MatchNotFoundError` propagates as is; any other apply error is wrapped
in `Failed to apply edits:`), and return the modified content. -/
def editFile (rx : Rx.Matcher) (content : List Char) (edits : List Edit) :
    Except (List Char) (List Char × List (Nat × R2)) :=
  let lines := buildLines content
  match addEdits lines.length [] edits with
  | .error err => .error (message err)
  | .ok stored =>
    match applyEdits rx lines stored with
    | .ok res => .ok res
    | .error (Err.matchNotFound l m r) => .error (message (.matchNotFound l m r))
    | .error err => .error (("Failed to apply edits: ").data ++ message err)

/-- The on-disk content after `editFile`: written only when the edit
pipeline succeeded and `dryRun` is false. -/
def fileAfter (rx : Rx.Matcher) (content : List Char) (edits : List Edit)
    (dryRun : Bool) : List Char :=
  match editFile rx content edits with
  | .ok res => if dryRun then content else res.1
  | .error _ => content

end V2

namespace V1

open JsStr

/-- Model of `EditActionType` of the action-based `editTypes.ts`. -/
inductive Action where
  | insertBefore
  | insertAfter
  | deleteLine
  | replaceContentAtLine
deriving DecidableEq

/-- Model of `EditOperation` of the action-based `editTypes.ts`: new action fields
plus the legacy range fields, all optional. -/
structure Edit where
  lineNumber : Option Nat := none
  action : Option Action := none
  text : Option (List Char) := none
  strMatch : Option (List Char) := none
  regexMatch : Option (List Char) := none
  startLine : Option Nat := none
  endLine : Option Nat := none
  content : Option (List Char) := none
deriving DecidableEq

inductive Status where
  | APPLIED
  | SKIPPED
  | FAILED
deriving DecidableEq

/-- Model of `EditOperationResult` of the action-based `editTypes.ts`. -/
structure R1 where
  lineNumber : Nat
  status : Status
  message : List Char
deriving DecidableEq

/-- Model of `LineMetadata` of the action-based `FileEditor`: `originalIndex` is an
`Int` because synthesized lines carry the sentinel `-1`. -/
structure LineMeta where
  content : List Char
  indentation : List Char
  originalIndex : Int
  isDeleted : Bool := false
deriving DecidableEq

/-- The action-based `FileEditor` constructor. -/
def buildAux : Int → List (List Char) → List LineMeta
  | _, [] => []
  | i, l :: ls => ⟨trimStart l, V2.indentOf l, i, false⟩ :: buildAux (i + 1) ls

def buildLines (content : List Char) : List LineMeta :=
  buildAux 0 (splitNl (normalizeLineEndings content))

/-- The editor's mutable state: the original lines, the accepted edits, and
the outcome map. -/
structure EState where
  lines : List LineMeta
  editsToApply : List Edit
  results : List (Nat × R1)
deriving DecidableEq

/-- JavaScript `a || b` on strings: `b` when `a` is empty. -/
def jsOrS (a b : List Char) : List Char := if a = [] then b else a

/-- Model of `FileEditor.normalizeEditContent`: multi-line text gets
`baseIndentation` prefixed to every line but the first. -/
def normalizeEditContent (content baseIndentation : List Char) : List Char :=
  if content = [] then []
  else
    let lines := splitNl content
    if lines.length = 1 then normalizeLineEndings content
    else
      normalizeLineEndings
        (lines.headD [] ++ '\n' ::
          joinNl ((lines.drop 1).map (fun line => baseIndentation ++ line)))

def hasLegacyFields (e : Edit) : Bool :=
  e.startLine.isSome || e.endLine.isSome || e.content.isSome

/-- Outcome of `normalizeLegacyEdit`: the normalized edit it returns (if
any), the edits it pushes directly for a ranged legacy edit, and the FAILED
record it stores when the legacy shape cannot be converted. -/
structure LegacyOutcome where
  returned : Option Edit
  pushedExtra : List Edit
  failRecord : Option (Nat × R1)
deriving DecidableEq

/-- Model of `FileEditor.normalizeLegacyEdit`: a one-line legacy edit becomes a
`replace_content_at_line`; a ranged legacy edit with content pushes a
replace of the first line plus deletes of the rest and returns null; other
shapes record a FAILED result and return null. -/
def normalizeLegacyEdit (e : Edit) : LegacyOutcome :=
  let key := e.lineNumber.getD 0
  match e.startLine with
  | some sl =>
    if sl = 0 then
      ⟨none, [], some (key, ⟨key, .FAILED, ("Invalid startLine.").data⟩)⟩
    else
      let el :=
        match e.endLine with
        | some x => if x ≠ 0 then x else sl
        | none => sl
      let content := (e.content.getD [])
      if sl = el then
        ⟨some
          { lineNumber := some sl, action := some .replaceContentAtLine,
            text := some content, strMatch := e.strMatch,
            regexMatch := e.regexMatch },
         [], none⟩
      else if content ≠ [] then
        ⟨none,
         { lineNumber := some sl, action := some .replaceContentAtLine,
           text := some content } ::
           (List.range' (sl + 1) (el + 1 - (sl + 1))).map
             (fun i => { lineNumber := some i, action := some .deleteLine }),
         none⟩
      else
        ⟨none, [],
         some (key,
           ⟨key, .FAILED,
            ("Invalid legacy edit format. Cannot convert to new format.").data⟩)⟩
  | none =>
    ⟨none, [],
     some (key,
       ⟨key, .FAILED,
        ("Invalid legacy edit format. Cannot convert to new format.").data⟩)⟩

/-- A matcher-independent stand-in for `new RegExp(pattern)` compiling
successfully; `validateRegexPattern` throws exactly when it does not. -/
abbrev RegexCompiles : Type := List Char → Bool

inductive Err1 where
  | invalidRegexPattern (p : List Char)
deriving DecidableEq

/-- Model of `FileEditor.addEdit` of the action-based editor.  A legacy edit is
normalized first; when `normalizeLegacyEdit` returns null, control falls
through to the action-based path with the original edit (the source only
returns early when a normalized edit was pushed). -/
def addEdit (compiles : RegexCompiles) (st : EState) (e : Edit) :
    Except Err1 EState :=
  let afterLegacy : Option EState :=
    if hasLegacyFields e then
      let out := normalizeLegacyEdit e
      match out.returned with
      | some ne => some { st with editsToApply := st.editsToApply ++ [ne] }
      | none => none
    else none
  match afterLegacy with
  | some st' => .ok st'
  | none =>
    let st :=
      if hasLegacyFields e then
        let out := normalizeLegacyEdit e
        { st with
          editsToApply := st.editsToApply ++ out.pushedExtra
          results :=
            match out.failRecord with
            | some (k, r) => mapSet st.results k r
            | none => st.results }
      else st
    let lineNumber := e.lineNumber.getD 0
    if e.action.isNone then
      .ok { st with
        results := mapSet st.results lineNumber
          ⟨lineNumber, .FAILED, ("Action is required but not provided.").data⟩ }
    else
      let outOfRange := lineNumber ≤ 0 || lineNumber > st.lines.length
      let allowedBoundary :=
        (e.action = some .insertAfter && lineNumber = st.lines.length) ||
          (e.action = some .insertBefore && lineNumber = 1)
      if outOfRange && !allowedBoundary then
        .ok { st with
          results := mapSet st.results lineNumber
            ⟨lineNumber, .FAILED,
             ("Line number ").data ++ natChars lineNumber ++
               (" is out of range (1-").data ++ natChars st.lines.length ++
               (").").data⟩ }
      else
        let e :=
          if jsTruthy e.text then
            let indentation :=
              if lineNumber ≤ st.lines.length then
                ((st.lines.getD (lineNumber - 1) ⟨[], [], 0, false⟩).indentation)
              else []
            { e with
              text := some (normalizeEditContent (e.text.getD []) indentation) }
          else e
        let e :=
          if jsTruthy e.strMatch then
            { e with strMatch := some (normalizeLineEndings (e.strMatch.getD [])) }
          else e
        if jsTruthy e.regexMatch && !compiles (e.regexMatch.getD []) then
          .error (.invalidRegexPattern (e.regexMatch.getD []))
        else .ok { st with editsToApply := st.editsToApply ++ [e] }

def addEdits (compiles : RegexCompiles) : EState → List Edit → Except Err1 EState
  | st, [] => .ok st
  | st, e :: rest =>
    match addEdit compiles st e with
    | .error err => .error err
    | .ok st' => addEdits compiles st' rest

def defaultMeta : LineMeta := ⟨[], [], 0, false⟩

/-- One iteration of the action-based `applyEdits` loop.  `origLen` is
`this.lines.length` (the original line count, consulted by
`insert_after`). -/
def applyStep (origLen : Nat) (st : List LineMeta × List (Nat × R1)) (e : Edit) :
    List LineMeta × List (Nat × R1) :=
  let ml := st.1
  let results := st.2
  let targetOriginalIndex : Int := (e.lineNumber.getD 1 : Int) - 1
  let action := e.action.getD .replaceContentAtLine
  let currentIdx? : Option Nat :=
    listFindIdx (fun l => l.originalIndex = targetOriginalIndex && !l.isDeleted) ml
  let currentData : Option LineMeta := currentIdx?.map (fun i => ml.getD i defaultMeta)
  let key := e.lineNumber.getD 0
  match action with
  | .insertBefore =>
    match e.text with
    | none =>
      (ml,
       mapSet results key
         ⟨key, .FAILED, ("Text is required for insert_before.").data⟩)
    | some t =>
      let insertAtIndex :=
        if e.lineNumber.getD 0 = 1 then 0
        else
          match currentIdx? with
          | some i => i
          | none =>
            match listFindIdx
                (fun l => l.originalIndex > targetOriginalIndex && !l.isDeleted) ml with
            | some i => i
            | none => ml.length
      let indent :=
        jsOrS (match currentData with | some d => d.indentation | none => [])
          (jsOrS
            ((ml.getD (if insertAtIndex > 0 then insertAtIndex - 1 else 0)
                defaultMeta).indentation)
            [])
      (splice ml insertAtIndex 0 [⟨t, indent, -1, false⟩],
       mapSet results key ⟨key, .APPLIED, ("Inserted text before line.").data⟩)
  | .insertAfter =>
    match e.text with
    | none =>
      (ml,
       mapSet results key
         ⟨key, .FAILED, ("Text is required for insert_after.").data⟩)
    | some t =>
      let afterIndex :=
        if e.lineNumber.getD 0 > origLen then ml.length
        else
          match currentIdx? with
          | some i => i + 1
          | none =>
            match listFindIdx
                (fun l => l.originalIndex > targetOriginalIndex && !l.isDeleted) ml with
            | some i => i
            | none => ml.length
      let indent :=
        jsOrS (match currentData with | some d => d.indentation | none => [])
          (if afterIndex > 0 then
            jsOrS ((ml.getD (afterIndex - 1) defaultMeta).indentation) []
          else [])
      (splice ml afterIndex 0 [⟨t, indent, -1, false⟩],
       mapSet results key ⟨key, .APPLIED, ("Inserted text after line.").data⟩)
  | .deleteLine =>
    match currentIdx? with
    | some i =>
      (ml.set i { ml.getD i defaultMeta with isDeleted := true },
       mapSet results key ⟨key, .APPLIED, ("Line deleted.").data⟩)
    | none =>
      (ml,
       mapSet results key
         ⟨key, .SKIPPED, ("Line already deleted or not found.").data⟩)
  | .replaceContentAtLine =>
    match e.text with
    | none =>
      (ml,
       mapSet results key
         ⟨key, .FAILED, ("Text is required for replace_content_at_line.").data⟩)
    | some t =>
      match currentIdx? with
      | some i =>
        (ml.set i { ml.getD i defaultMeta with content := t },
         mapSet results key ⟨key, .APPLIED, ("Line content replaced.").data⟩)
      | none =>
        (ml,
         mapSet results key
           ⟨key, .SKIPPED,
            ("Line for replacement not found or already deleted.").data⟩)

/-- Model of `FileEditor.applyEdits` of the action-based editor: process the accepted
edits in submission order, drop the lines marked deleted, and render. -/
def applyEdits (st : EState) : List Char × List (Nat × R1) :=
  let final :=
    st.editsToApply.foldl (applyStep st.lines.length) (st.lines, st.results)
  (joinNl
      ((final.1.filter (fun l => !l.isDeleted)).map
        (fun l => l.indentation ++ l.content)),
   final.2)

/-- The `editFile` pipeline of the action-based editor, from current file
content to rendered content and outcome map. -/
def runEdits (compiles : RegexCompiles) (content : List Char)
    (edits : List Edit) : Except Err1 (List Char × List (Nat × R1)) :=
  let st0 : EState := ⟨buildLines content, [], []⟩
  match addEdits compiles st0 edits with
  | .error err => .error err
  | .ok st => .ok (applyEdits st)

/-- A bare `delete_line` request, as the tests submit it. -/
def deleteEdit (n : Nat) : Edit :=
  { lineNumber := some n, action := some .deleteLine }

end V1

namespace SM

open JsStr

/-- The legacy tuple edit shape `[startLine, endLine, content, searchText]`
stored by `stateManager.ts`. -/
structure TEdit where
  startLine : Nat
  endLine : Nat
  content : List Char
  searchText : List Char
deriving DecidableEq

/-- Model of `EditState` of `stateManager.ts`. -/
structure EditState where
  path : List Char
  edits : List TEdit
  timestamp : Nat
deriving DecidableEq

/-- The in-memory `states` map, keyed by the 8-character fingerprint. -/
abbrev SMap : Type := List (List Char × EditState)

/-- Model of `StateManager.cleanup`: drop every entry strictly older than the TTL. -/
def cleanup (ttl now : Nat) (m : SMap) : SMap :=
  m.filter (fun p => !(now - p.2.timestamp > ttl))

def jsonEscape : List Char → List Char
  | [] => []
  | '"' :: cs => '\\' :: '"' :: jsonEscape cs
  | '\\' :: cs => '\\' :: '\\' :: jsonEscape cs
  | '\n' :: cs => '\\' :: 'n' :: jsonEscape cs
  | '\r' :: cs => '\\' :: 'r' :: jsonEscape cs
  | '\t' :: cs => '\\' :: 't' :: jsonEscape cs
  | c :: cs => c :: jsonEscape cs

def jsonString (s : List Char) : List Char := '"' :: jsonEscape s ++ ['"']

def jsonTEdit (e : TEdit) : List Char :=
  '[' :: natChars e.startLine ++ ',' :: natChars e.endLine ++
    ',' :: jsonString e.content ++ ',' :: jsonString e.searchText ++ [']']

def jsonList : List TEdit → List Char
  | [] => []
  | [e] => jsonTEdit e
  | e :: e' :: rest => jsonTEdit e ++ ',' :: jsonList (e' :: rest)

/-- Model of `JSON.stringify of the path and edits pair` for the stored tuple shape. -/
def jsonPayload (path : List Char) (edits : List TEdit) : List Char :=
  ("\x7b\"path\":").data ++ jsonString path ++ (",\"edits\":[").data ++
    jsonList edits ++ ("]\x7d").data

/-- Model of `StateManager.generateStateId`: hash the serialized `(path, edits)`
pair and keep the first 8 hex characters.  `hash` abstracts
`createHash("sha256") ... digest("hex")`, a pure function of its input. -/
def generateStateId (hash : List Char → List Char) (path : List Char)
    (edits : List TEdit) : List Char :=
  (hash (jsonPayload path edits)).take 8

/-- Model of `StateManager.saveState`: cleanup, fingerprint, store under the
fingerprint with the current time. -/
def saveState (hash : List Char → List Char) (ttl now : Nat) (m : SMap)
    (path : List Char) (edits : List TEdit) : List Char × SMap :=
  let m' := cleanup ttl now m
  let stateId := generateStateId hash path edits
  (stateId, mapSet m' stateId ⟨path, edits, now⟩)

/-- Model of `StateManager.deleteState`: cleanup, then remove the id. -/
def deleteState (ttl now : Nat) (m : SMap) (stateId : List Char) : SMap :=
  mapErase (cleanup ttl now m) stateId

/-- Model of `StateManager.getState`: cleanup, then return the entry only when its
age is within the TTL; otherwise delete it and report absence. -/
def getState (ttl now : Nat) (m : SMap) (stateId : List Char) :
    Option EditState × SMap :=
  match mapGet (cleanup ttl now m) stateId with
  | some state =>
    if now - state.timestamp ≤ ttl then (some state, cleanup ttl now m)
    else (none, mapErase (cleanup ttl now m) stateId)
  | none => (none, mapErase (cleanup ttl now m) stateId)

/-- Model of `approveEdit` of `approveEdit.ts`: look the state up, fail with the
invalid-or-expired error when absent, otherwise re-run the apply pipeline
(`apply` abstracts `editFile` on the current file content) and delete the
entry only after it succeeded. -/
def approveEdit (apply : List Char → List TEdit → Except (List Char) (List Char))
    (ttl now : Nat) (m : SMap) (stateId : List Char) :
    Except (List Char) (List Char) × SMap :=
  match getState ttl now m stateId with
  | (none, m') => (.error ("Invalid or expired state ID").data, m')
  | (some savedState, m') =>
    match apply savedState.path savedState.edits with
    | .ok result => (.ok result, deleteState ttl now m' stateId)
    | .error e => (.error e, m')

end SM

def crlf : List Char := ['\r', '\n']

/-- An edit with a falsy (absent or empty) `regexMatch` occupies line `n`
in the usage map `m`. -/
def anyNR (m : Nat → List V2.Edit) (n : Nat) : Prop :=
  ∃ x ∈ m n, jsTruthy x.regexMatch = false

/-- The matched spans, read as half-open intervals of positions, intersect. -/
def spanOverlap (s1 e1 s2 e2 : Nat) : Prop :=
  ∃ i, (s1 ≤ i ∧ i < e1) ∧ (s2 ≤ i ∧ i < e2)

theorem JsStr.splitNl_ne_nil (s : List Char) : splitNl s ≠ [] := by
  induction s with
  | nil => simp [splitNl]
  | cons c cs ih =>
    simp only [splitNl]
    split
    · simp
    · cases h : splitNl cs with
      | nil => simp
      | cons l ls => simp

/-- Splitting on newlines and joining back is the identity. -/
theorem JsStr.joinNl_splitNl (s : List Char) : joinNl (splitNl s) = s := by
  induction s with
  | nil => simp [splitNl, joinNl]
  | cons c cs ih =>
    by_cases hc : c = '\n'
    · subst hc
      simp only [splitNl, if_pos rfl]
      cases h : splitNl cs with
      | nil => exact absurd h (splitNl_ne_nil cs)
      | cons l ls =>
        rw [h] at ih
        simp [joinNl, ih]
    · simp only [splitNl, if_neg hc]
      cases h : splitNl cs with
      | nil => exact absurd h (splitNl_ne_nil cs)
      | cons l ls =>
        rw [h] at ih
        cases ls with
        | nil => simp [joinNl] at ih ⊢; exact ih
        | cons l' ls' => simp [joinNl] at ih ⊢; rw [← ih]


theorem indentOf_append_trimStart (l : List Char) :
    V2.indentOf l ++ JsStr.trimStart l = l := by
  unfold V2.indentOf JsStr.trimStart
  have h1 : l.takeWhile JsStr.isWs ++ l.dropWhile JsStr.isWs = l :=
    List.takeWhile_append_dropWhile JsStr.isWs l
  have h2 : l.length - (l.dropWhile JsStr.isWs).length =
      (l.takeWhile JsStr.isWs).length := by
    have := congrArg List.length h1
    simp only [List.length_append] at this
    omega
  rw [h2]
  have hpre : l.takeWhile JsStr.isWs <+: l := List.takeWhile_prefix _
  have h3 : l.takeWhile JsStr.isWs = l.take (l.takeWhile JsStr.isWs).length :=
    List.prefix_iff_eq_take.mp hpre
  rw [← h3]
  exact h1

theorem buildAux_render (chunks : List (List Char)) :
    ∀ i, (V2.buildAux i chunks).map (fun l => l.indentation ++ l.content) = chunks := by
  induction chunks with
  | nil => intro i; simp [V2.buildAux]
  | cons l ls ih =>
    intro i
    simp only [V2.buildAux, List.map_cons, ih]
    rw [indentOf_append_trimStart]

theorem render_build (x : List Char) :
    V2.renderLines (V2.buildLines x) = JsStr.normalizeLineEndings x := by
  unfold V2.renderLines V2.buildLines
  rw [buildAux_render, JsStr.joinNl_splitNl]

theorem normalize_eq_self (x : List Char)
    (h : JsStr.containsSub x crlf = false) :
    JsStr.normalizeLineEndings x = x := by
  induction x using JsStr.normalizeLineEndings.induct with
  | case1 => rfl
  | case2 cs ih =>
    exfalso
    simp [JsStr.containsSub, JsStr.startsWith, crlf] at h
  | case3 c cs hne ih =>
    have h' : JsStr.containsSub cs crlf = false := by
      rw [JsStr.containsSub] at h
      split at h
      · exact absurd h (by simp)
      · exact h
    rw [JsStr.normalizeLineEndings.eq_def]
    split
    · rename_i heq
      simp at heq
    · rename_i cs2 heq
      injection heq with h1 h2
      exact absurd (hne cs2 h1 h2) (fun f => f)
    · rename_i c2 cs2 hx heq
      injection heq with h1 h2
      subst h1
      subst h2
      rw [ih h']

/-- C1 (amended): applying an empty edit list reproduces the built-and-
rendered line model, which equals the input content with line endings
normalized; when the content contains no CRLF sequence the round trip is
the identity, byte for byte. -/
theorem c1_empty_edit_roundtrip (rx : Rx.Matcher) (x : List Char) :
    V2.editFile rx x [] = .ok (JsStr.normalizeLineEndings x, []) ∧
    V2.fileAfter rx x [] false = JsStr.normalizeLineEndings x ∧
    (JsStr.containsSub x crlf = false → V2.fileAfter rx x [] false = x) := by
  have he : V2.editFile rx x [] = .ok (V2.renderLines (V2.buildLines x), []) := rfl
  rw [render_build] at he
  refine ⟨he, ?_, ?_⟩
  · simp [V2.fileAfter, he]
  · intro h
    simp [V2.fileAfter, he, normalize_eq_self x h]

theorem c1_empty_edit_roundtrip_witness :
    JsStr.containsSub (("Line 1\nLine 2").data) crlf = false ∧
    V2.fileAfter Rx.jsMatch (("Line 1\nLine 2").data) [] false =
      ("Line 1\nLine 2").data :=
  ⟨by decide,
   (c1_empty_edit_roundtrip Rx.jsMatch (("Line 1\nLine 2").data)).2.2 (by decide)⟩

/-- C1 counterexample: for CRLF content the round trip is not byte-for-byte
the identity — `Render(Build("a\r\nb"))` is `"a\nb"`, and `editFile` with an
empty edit list rewrites the file to the normalized form. -/
theorem c1_crlf_not_identity :
    V2.renderLines (V2.buildLines (("a\r\nb").data)) ≠ ("a\r\nb").data ∧
    V2.fileAfter Rx.jsMatch (("a\r\nb").data) [] false ≠ ("a\r\nb").data ∧
    V2.fileAfter Rx.jsMatch (("a\r\nb").data) [] false = ("a\nb").data := by
  refine ⟨by decide, by decide, by decide⟩

theorem validateRange_ok_iff (total : Nat) (e : V2.Edit) :
    V2.validateRange total e = .ok () ↔
      (e.startLine ≤ e.endLine ∧ 1 ≤ e.startLine ∧ e.endLine ≤ total) := by
  unfold V2.validateRange
  split_ifs with h1 h2
  · simp; omega
  · simp at h2 ⊢; omega
  · simp at h2 ⊢; omega

theorem addEdits_error_of_bad (total : Nat) (acc : List V2.Edit)
    (edits : List V2.Edit) (e : V2.Edit) (he : e ∈ edits)
    (hbad : ¬(e.startLine ≤ e.endLine ∧ 1 ≤ e.startLine ∧ e.endLine ≤ total)) :
    ∃ err, V2.addEdits total acc edits = .error err := by
  induction edits generalizing acc with
  | nil => cases he
  | cons a rest ih =>
    rw [V2.addEdits]
    cases he' : V2.addEdit total acc a with
    | error err => exact ⟨err, rfl⟩
    | ok acc' =>
      rcases List.mem_cons.mp he with rfl | hmem
      · exfalso
        unfold V2.addEdit at he'
        cases hv : V2.validateRange total e with
        | error err => rw [hv] at he'; cases he'
        | ok u =>
          cases u
          exact hbad ((validateRange_ok_iff total e).mp hv)
      · exact ih acc' hmem

/-- C3: an edit whose startLine exceeds its endLine, whose startLine is
below 1, or whose endLine exceeds the current line count makes the whole
`editFile` call fail (the range error from `addEdit` propagates before
anything is applied), the file is unchanged, and `validateRange` reports
the offending bounds in the corresponding error. -/
theorem c3_invalid_range_rejected (rx : Rx.Matcher) (content : List Char)
    (edits : List V2.Edit) (e : V2.Edit) (he : e ∈ edits)
    (hbad : e.startLine > e.endLine ∨ e.startLine < 1 ∨
      e.endLine > (V2.buildLines content).length) :
    (∃ msg, V2.editFile rx content edits = .error msg) ∧
    V2.fileAfter rx content edits false = content ∧
    (e.startLine > e.endLine →
      V2.validateRange (V2.buildLines content).length e =
        .error (.rangeStartGtEnd e.startLine e.endLine)) ∧
    (e.startLine ≤ e.endLine →
      V2.validateRange (V2.buildLines content).length e =
        .error (.rangeOutOfBounds (V2.buildLines content).length
          e.startLine e.endLine)) := by
  obtain ⟨err, herr⟩ :=
    addEdits_error_of_bad (V2.buildLines content).length [] edits e he
      (by omega)
  have heditFile : V2.editFile rx content edits = .error (V2.message err) := by
    unfold V2.editFile
    simp only []
    rw [herr]
  refine ⟨⟨V2.message err, heditFile⟩, ?_, ?_, ?_⟩
  · unfold V2.fileAfter
    rw [heditFile]
  · intro hgt
    unfold V2.validateRange
    rw [if_pos hgt]
  · intro hle
    have hbound : e.startLine < 1 ∨ e.endLine > (V2.buildLines content).length := by
      omega
    unfold V2.validateRange
    rw [if_neg (by omega)]
    rw [if_pos (by simp; omega)]

theorem c3_invalid_range_rejected_witness :
    V2.editFile Rx.jsMatch (("Line 1\nLine 2\nLine 3\nLine 4\nLine 5").data)
        [⟨3, 2, ("x").data, none, none⟩] =
      .error (("Invalid range: start line 3 is greater than end line 2").data) ∧
    JsStr.containsSub
      (("Invalid range: start line 3 is greater than end line 2").data)
      (("start line 3 is greater than end line 2").data) = true ∧
    V2.fileAfter Rx.jsMatch (("Line 1\nLine 2\nLine 3\nLine 4\nLine 5").data)
        [⟨3, 2, ("x").data, none, none⟩] false =
      ("Line 1\nLine 2\nLine 3\nLine 4\nLine 5").data :=
  ⟨by decide, by decide,
   (c3_invalid_range_rejected Rx.jsMatch
      (("Line 1\nLine 2\nLine 3\nLine 4\nLine 5").data)
      [⟨3, 2, ("x").data, none, none⟩] ⟨3, 2, ("x").data, none, none⟩
      (by decide) (by decide)).2.1⟩


theorem checkLine_shape {rx : Rx.Matcher} {lines : List V2.LineMeta}
    {m : Nat → List V2.Edit} {e : V2.Edit} {line : Nat}
    {m' : Nat → List V2.Edit}
    (h : V2.checkLine rx lines m e line = .ok m') (k : Nat) :
    m' k = if k = line then m line ++ [e] else m k := by
  unfold V2.checkLine at h
  cases hstep : V2.lineStep rx lines (m line) e line with
  | error err => rw [hstep] at h; cases h
  | ok u =>
    rw [hstep] at h
    cases h
    rfl

theorem lineStep_error_of_nonregex {rx : Rx.Matcher} {lines : List V2.LineMeta}
    {existing : List V2.Edit} {e : V2.Edit} {line : Nat}
    (he : jsTruthy e.regexMatch = false)
    (hx : ∃ x ∈ existing, jsTruthy x.regexMatch = false) :
    V2.lineStep rx lines existing e line = .error (.multiNonRegex line) := by
  unfold V2.lineStep
  rw [if_neg (by simp [he])]
  rw [if_pos]
  obtain ⟨x, hmem, hxnr⟩ := hx
  have h1 : existing.length > 0 := List.length_pos.mpr (List.ne_nil_of_mem hmem)
  have h2 : (existing.filter (fun x => !jsTruthy x.regexMatch)).length > 0 := by
    apply List.length_pos.mpr
    apply List.ne_nil_of_mem (List.mem_filter.mpr ⟨hmem, by simp [hxnr]⟩)
  simp only [Bool.and_eq_true, decide_eq_true_eq]
  omega

theorem checkLine_error_of_nonregex_conflict {rx : Rx.Matcher}
    {lines : List V2.LineMeta} {m : Nat → List V2.Edit} {e : V2.Edit} {line : Nat}
    (he : jsTruthy e.regexMatch = false) (hx : anyNR m line) :
    V2.checkLine rx lines m e line = .error (.multiNonRegex line) := by
  unfold V2.checkLine
  rw [lineStep_error_of_nonregex he hx]

theorem anyNR_update {m m1 : Nat → List V2.Edit} {e : V2.Edit} {l k : Nat}
    (hs : m1 k = if k = l then m l ++ [e] else m k)
    (h : anyNR m k) : anyNR m1 k := by
  obtain ⟨x, hmem, hxnr⟩ := h
  refine ⟨x, ?_, hxnr⟩
  rw [hs]
  by_cases hkl : k = l
  · subst hkl
    rw [if_pos rfl]
    exact List.mem_append_left _ hmem
  · rw [if_neg hkl]
    exact hmem

theorem anyNR_update_self {m m1 : Nat → List V2.Edit} {e : V2.Edit} {l : Nat}
    (hs : m1 l = if l = l then m l ++ [e] else m l)
    (he : jsTruthy e.regexMatch = false) : anyNR m1 l := by
  refine ⟨e, ?_, he⟩
  rw [hs, if_pos rfl]
  exact List.mem_append_right _ (List.mem_singleton.mpr rfl)

theorem checkLinesGo_mono {rx : Rx.Matcher} {lines : List V2.LineMeta}
    {e : V2.Edit} {ns : List Nat} {m m' : Nat → List V2.Edit}
    (h : V2.checkLinesGo rx lines e m ns = .ok m') (k : Nat)
    (hk : anyNR m k) : anyNR m' k := by
  induction ns generalizing m with
  | nil =>
    unfold V2.checkLinesGo at h
    cases h
    exact hk
  | cons l rest ih =>
    unfold V2.checkLinesGo at h
    cases hc : V2.checkLine rx lines m e l with
    | error err => rw [hc] at h; cases h
    | ok m1 =>
      rw [hc] at h
      exact ih h (anyNR_update (checkLine_shape hc k) hk)

theorem checkLinesGo_error_of_conflict {rx : Rx.Matcher}
    {lines : List V2.LineMeta} {e : V2.Edit} {ns : List Nat}
    {m : Nat → List V2.Edit} {n : Nat} (he : jsTruthy e.regexMatch = false)
    (hn : n ∈ ns) (hm : anyNR m n) :
    ∃ err, V2.checkLinesGo rx lines e m ns = .error err := by
  induction ns generalizing m with
  | nil => cases hn
  | cons l rest ih =>
    unfold V2.checkLinesGo
    rcases List.mem_cons.mp hn with rfl | hmem
    · rw [checkLine_error_of_nonregex_conflict he hm]
      exact ⟨.multiNonRegex n, rfl⟩
    · cases hc : V2.checkLine rx lines m e l with
      | error err => exact ⟨err, rfl⟩
      | ok m1 =>
        exact ih hmem (anyNR_update (checkLine_shape hc n) hm)

theorem checkLinesGo_records {rx : Rx.Matcher} {lines : List V2.LineMeta}
    {e : V2.Edit} {ns : List Nat} {m m' : Nat → List V2.Edit}
    (h : V2.checkLinesGo rx lines e m ns = .ok m')
    (he : jsTruthy e.regexMatch = false)
    (k : Nat) (hk : k ∈ ns) : anyNR m' k := by
  induction ns generalizing m with
  | nil => cases hk
  | cons l rest ih =>
    unfold V2.checkLinesGo at h
    cases hc : V2.checkLine rx lines m e l with
    | error err => rw [hc] at h; cases h
    | ok m1 =>
      rw [hc] at h
      rcases List.mem_cons.mp hk with rfl | hmem
      · exact checkLinesGo_mono h k (anyNR_update_self (checkLine_shape hc k) he)
      · exact ih h hmem

theorem validateAux_error_of_poisoned {rx : Rx.Matcher}
    {lines : List V2.LineMeta} {edits : List V2.Edit} {m : Nat → List V2.Edit}
    {b : V2.Edit} {n : Nat} (hb : b ∈ edits)
    (hbnr : jsTruthy b.regexMatch = false)
    (hbn : n ∈ V2.lineSpan b) (hm : anyNR m n) :
    ∃ err, V2.validateAux rx lines m edits = .error err := by
  induction edits generalizing m with
  | nil => cases hb
  | cons x rest ih =>
    unfold V2.validateAux
    cases hc : V2.checkEdit rx lines m x with
    | error err => exact ⟨err, rfl⟩
    | ok m1 =>
      rcases List.mem_cons.mp hb with rfl | hmem
      · exfalso
        obtain ⟨err, herr⟩ := checkLinesGo_error_of_conflict hbnr hbn hm
        unfold V2.checkEdit at hc
        rw [herr] at hc
        cases hc
      · unfold V2.checkEdit at hc
        exact ih hmem (checkLinesGo_mono hc n hm)

theorem validateAux_error_of_two_nonregex {rx : Rx.Matcher}
    {lines : List V2.LineMeta} {m : Nat → List V2.Edit} {edits : List V2.Edit}
    {a b : V2.Edit} {n : Nat} (hsub : List.Sublist [a, b] edits)
    (ha : jsTruthy a.regexMatch = false) (hb : jsTruthy b.regexMatch = false)
    (han : n ∈ V2.lineSpan a) (hbn : n ∈ V2.lineSpan b) :
    ∃ err, V2.validateAux rx lines m edits = .error err := by
  induction edits generalizing m with
  | nil => cases hsub
  | cons x rest ih =>
    cases hsub with
    | cons _ hsub' =>
      unfold V2.validateAux
      cases hc : V2.checkEdit rx lines m x with
      | error err => exact ⟨err, rfl⟩
      | ok m1 => exact ih hsub'
    | cons₂ _ hsub' =>
      unfold V2.validateAux
      cases hc : V2.checkEdit rx lines m a with
      | error err => exact ⟨err, rfl⟩
      | ok m1 =>
        have hbmem : b ∈ rest := hsub'.subset (List.mem_singleton.mpr rfl)
        unfold V2.checkEdit at hc
        exact validateAux_error_of_poisoned hbmem hb hbn
          (checkLinesGo_records hc ha n han)

theorem addEdits_ok_shape {total : Nat} {acc edits stored : List V2.Edit}
    (h : V2.addEdits total acc edits = .ok stored) :
    stored = acc ++ edits.map V2.normalizeEdit := by
  induction edits generalizing acc with
  | nil =>
    unfold V2.addEdits at h
    cases h
    simp
  | cons a rest ih =>
    unfold V2.addEdits at h
    cases hadd : V2.addEdit total acc a with
    | error err => rw [hadd] at h; cases h
    | ok acc' =>
      rw [hadd] at h
      have hshape := ih h
      unfold V2.addEdit at hadd
      cases hv : V2.validateRange total a with
      | error e => rw [hv] at hadd; cases hadd
      | ok u =>
        cases u
        rw [hv] at hadd
        cases hadd
        simpa using hshape

/-- C2 (amended): a batch in which two edits without a regex match condition
occupy the same line fails validation (the occupancy check throws
`Line N is affected by multiple non-regex edits` when it is the check
reached first), the whole `editFile` call fails, and the file is
unchanged. -/
theorem c2_two_nonregex_edits_rejected (rx : Rx.Matcher) (content : List Char)
    (edits : List V2.Edit) (a b : V2.Edit) (n : Nat)
    (hsub : List.Sublist [a, b] edits) (ha : a.regexMatch = none)
    (hb : b.regexMatch = none) (han : n ∈ V2.lineSpan a)
    (hbn : n ∈ V2.lineSpan b) :
    (∃ err, V2.validateEdits rx (V2.buildLines content) edits = .error err) ∧
    (∃ msg, V2.editFile rx content edits = .error msg) ∧
    V2.fileAfter rx content edits false = content := by
  have ha' : jsTruthy a.regexMatch = false := by simp [jsTruthy, ha]
  have hb' : jsTruthy b.regexMatch = false := by simp [jsTruthy, hb]
  have hval : ∀ (lines : List V2.LineMeta) (es : List V2.Edit),
      List.Sublist [a, b] es →
      ∃ err, V2.validateEdits rx lines es = .error err := by
    intro lines es hsub'
    exact validateAux_error_of_two_nonregex hsub' ha' hb' han hbn
  have heditFile : ∃ msg, V2.editFile rx content edits = .error msg := by
    unfold V2.editFile
    simp only []
    cases hadd : V2.addEdits (V2.buildLines content).length [] edits with
    | error err => exact ⟨V2.message err, rfl⟩
    | ok stored =>
      have hstored : stored = edits.map V2.normalizeEdit := by
        simpa using addEdits_ok_shape hadd
      have hsub2 : List.Sublist [V2.normalizeEdit a, V2.normalizeEdit b] stored := by
        rw [hstored]
        exact List.Sublist.map V2.normalizeEdit hsub
      have herr2 : ∃ err, V2.validateAux rx (V2.buildLines content)
          (fun _ => []) stored = .error err :=
        validateAux_error_of_two_nonregex hsub2 ha' hb' han hbn
      obtain ⟨err, herr⟩ := herr2
      have happly :
          V2.applyEdits rx (V2.buildLines content) stored = .error err := by
        unfold V2.applyEdits V2.validateEdits
        rw [herr]
      simp only [happly]
      cases err with
      | matchNotFound l mm r => exact ⟨_, rfl⟩
      | rangeStartGtEnd s e => exact ⟨_, rfl⟩
      | rangeOutOfBounds t s e => exact ⟨_, rfl⟩
      | overlap l p1 p2 => exact ⟨_, rfl⟩
      | multiNonRegex l => exact ⟨_, rfl⟩
  refine ⟨hval (V2.buildLines content) edits hsub, heditFile, ?_⟩
  obtain ⟨msg, hmsg⟩ := heditFile
  unfold V2.fileAfter
  rw [hmsg]

theorem c2_two_nonregex_edits_rejected_witness :
    V2.fileAfter Rx.jsMatch (("L1\nL2\nL3").data)
        [⟨2, 2, ("a").data, none, none⟩, ⟨2, 2, ("b").data, none, none⟩] false =
      ("L1\nL2\nL3").data :=
  (c2_two_nonregex_edits_rejected Rx.jsMatch (("L1\nL2\nL3").data)
      [⟨2, 2, ("a").data, none, none⟩, ⟨2, 2, ("b").data, none, none⟩]
      ⟨2, 2, ("a").data, none, none⟩ ⟨2, 2, ("b").data, none, none⟩ 2
      (by decide) rfl rfl (by decide) (by decide)).2.2

/-- C2 counterexample: the rejection message for the spec's scenario is
`Failed to apply edits: Line 2 is affected by multiple non-regex edits`,
which does not contain the claimed wording
`Line 2 is affected by multiple edits`. -/
theorem c2_message_wording_counterexample :
    V2.editFile Rx.jsMatch (("L1\nL2\nL3").data)
        [⟨2, 2, ("a").data, none, none⟩, ⟨2, 2, ("b").data, none, none⟩] =
      .error
        (("Failed to apply edits: Line 2 is affected by multiple non-regex edits").data) ∧
    JsStr.containsSub
      (("Failed to apply edits: Line 2 is affected by multiple non-regex edits").data)
      (("Line 2 is affected by multiple edits").data) = false :=
  ⟨by decide, by decide⟩


theorem validateEdits_pair (rx : Rx.Matcher) (lines : List V2.LineMeta)
    (n : Nat) (t1 t2 : List Char) (sm1 sm2 : Option (List Char))
    (p1 p2 : List Char) (hp1 : p1 ≠ []) (hp2 : p2 ≠ []) :
    V2.validateEdits rx lines
        [⟨n, n, t1, sm1, some p1⟩, ⟨n, n, t2, sm2, some p2⟩] =
      (match rx p2 (lines.getD (n - 1) ⟨[], [], 0⟩).content,
          rx p1 (lines.getD (n - 1) ⟨[], [], 0⟩).content with
       | some (s1, l1), some (s2, l2) =>
         if V2.overlapCond s1 (s1 + l1) s2 (s2 + l2) then
           .error (.overlap n p2 p1)
         else .ok ()
       | _, _ => .ok ()) := by
  have hone : n + 1 - n = 1 := by omega
  have ht1 : jsTruthy (some p1) = true := by simp [jsTruthy, hp1]
  have ht2 : jsTruthy (some p2) = true := by simp [jsTruthy, hp2]
  simp only [V2.validateEdits, V2.validateAux, V2.checkEdit, V2.lineSpan, hone,
    List.range'_one, V2.checkLinesGo, V2.checkLine, V2.lineStep,
    V2.checkRegexOverlaps, ht1, ht2, if_true, if_pos, List.nil_append,
    Option.getD_some]
  cases h2 : rx p2 (lines.getD (n - 1) ⟨[], [], 0⟩).content with
  | none => simp
  | some v2 =>
    cases h1 : rx p1 (lines.getD (n - 1) ⟨[], [], 0⟩).content with
    | none => simp
    | some v1 =>
      obtain ⟨s1, l1⟩ := v2
      obtain ⟨s2, l2⟩ := v1
      by_cases hc : V2.overlapCond s1 (s1 + l1) s2 (s2 + l2)
      · simp [hc]
      · simp [hc]

/-- C4 (amended): a pair of edits on the same line conditioned on truthy
(non-empty) regex patterns is rejected exactly when both patterns match the
current line content and the source's interval test
`(s1 <= s2 && e1 > s2) || (s2 <= s1 && e2 > s1)` holds on the matched
`[start, start+length)` intervals; for matches of nonzero length this test
coincides with span intersection, but a zero-length match starting at the
same index as the other match is also rejected although its span is empty.
Non-overlapping pairs are permitted.  An empty-string pattern is falsy in
the source and takes the non-regex path instead. -/
theorem c4_regex_pair_overlap (rx : Rx.Matcher) (lines : List V2.LineMeta)
    (n : Nat) (t1 t2 : List Char) (sm1 sm2 : Option (List Char))
    (p1 p2 : List Char) (hp1 : p1 ≠ []) (hp2 : p2 ≠ []) :
    ((∃ err, V2.validateEdits rx lines
        [⟨n, n, t1, sm1, some p1⟩, ⟨n, n, t2, sm2, some p2⟩] = .error err) ↔
      (∃ s1 l1 s2 l2,
        rx p2 (lines.getD (n - 1) ⟨[], [], 0⟩).content = some (s1, l1) ∧
        rx p1 (lines.getD (n - 1) ⟨[], [], 0⟩).content = some (s2, l2) ∧
        V2.overlapCond s1 (s1 + l1) s2 (s2 + l2) = true)) ∧
    (∀ s1 l1 s2 l2, 0 < l1 → 0 < l2 →
      (V2.overlapCond s1 (s1 + l1) s2 (s2 + l2) = true ↔
        spanOverlap s1 (s1 + l1) s2 (s2 + l2))) := by
  constructor
  · rw [validateEdits_pair rx lines n t1 t2 sm1 sm2 p1 p2 hp1 hp2]
    cases h2 : rx p2 (lines.getD (n - 1) ⟨[], [], 0⟩).content with
    | none => simp
    | some v2 =>
      cases h1 : rx p1 (lines.getD (n - 1) ⟨[], [], 0⟩).content with
      | none =>
        obtain ⟨s1, l1⟩ := v2
        simp
      | some v1 =>
        obtain ⟨s1, l1⟩ := v2
        obtain ⟨s2, l2⟩ := v1
        by_cases hc : V2.overlapCond s1 (s1 + l1) s2 (s2 + l2)
        · simp only [if_pos hc]
          constructor
          · intro _
            exact ⟨s1, l1, s2, l2, rfl, rfl, hc⟩
          · intro _
            exact ⟨.overlap n p2 p1, rfl⟩
        · simp only [if_neg hc]
          constructor
          · intro ⟨err, herr⟩
            cases herr
          · intro ⟨s1', l1', s2', l2', hh2, hh1, hcc⟩
            injection hh2 with hv2
            injection hh1 with hv1
            injection hv2 with hs1 hl1
            injection hv1 with hs2 hl2
            subst hs1; subst hl1; subst hs2; subst hl2
            exact absurd hcc hc
  · intro s1 l1 s2 l2 hl1 hl2
    unfold V2.overlapCond
    constructor
    · intro h
      simp only [Bool.or_eq_true, Bool.and_eq_true, decide_eq_true_eq] at h
      rcases h with ⟨hle, hgt⟩ | ⟨hle, hgt⟩
      · exact ⟨s2, ⟨hle, hgt⟩, Nat.le_refl s2, by omega⟩
      · exact ⟨s1, ⟨Nat.le_refl s1, by omega⟩, hle, hgt⟩
    · intro ⟨i, ⟨h1a, h1b⟩, h2a, h2b⟩
      simp only [Bool.or_eq_true, Bool.and_eq_true, decide_eq_true_eq]
      omega

theorem c4_regex_pair_overlap_witness :
    V2.validateEdits Rx.jsMatch (V2.buildLines ("color blue").data)
        [⟨1, 1, ("X").data, none, some ("color").data⟩,
         ⟨1, 1, ("Y").data, none, some ("blue").data⟩] = .ok () ∧
    (V2.overlapCond 0 (0 + 5) 6 (6 + 4) = true ↔
      spanOverlap 0 (0 + 5) 6 (6 + 4)) :=
  ⟨by decide,
   (c4_regex_pair_overlap Rx.jsMatch (V2.buildLines ("color blue").data) 1
      (("X").data) (("Y").data) none none (("color").data) (("blue").data)
      (by decide) (by decide)).2
     0 5 6 4 (by decide) (by decide)⟩

/-- C4 counterexample: on the line `ab`, the pattern `x*` matches with a
zero-length span `[0, 0)` and the pattern `a` with span `[0, 1)`; the spans
do not overlap as intervals, yet validation rejects the pair. -/
theorem c4_zero_length_span_counterexample :
    V2.validateEdits Rx.jsMatch (V2.buildLines ("ab").data)
        [⟨1, 1, ("X").data, none, some ("x*").data⟩,
         ⟨1, 1, ("Y").data, none, some ("a").data⟩] =
      .error (.overlap 1 (("a").data) (("x*").data)) ∧
    Rx.jsMatch (("x*").data) (("ab").data) = some (0, 0) ∧
    Rx.jsMatch (("a").data) (("ab").data) = some (0, 1) ∧
    ¬spanOverlap 0 (0 + 0) 0 (0 + 1) := by
  refine ⟨by decide, by decide, by decide, ?_⟩
  rintro ⟨i, ⟨_, hi⟩, _⟩
  omega

/-- C5 (amended): when a match condition cannot be located, the operation
fails with `MatchNotFoundError` carrying the target line number, the
searched text and whether it was a regex; the search runs against the
line's trimmed body (`lineMetadata.content`, the line with its indentation
stripped; for the exact-string case both sides additionally trimmed), not
against the full reconstructed `indent + body` line. -/
theorem c5_match_not_found (rx : Rx.Matcher) (lm : V2.LineMeta) (e : V2.Edit)
    (ln : Nat) :
    (∀ s, e.strMatch = some s → s ≠ [] →
      JsStr.containsSub (JsStr.trim lm.content) (JsStr.trim s) = false →
      JsStr.containsSub (JsStr.collapseWs (JsStr.trim lm.content))
          (JsStr.collapseWs (JsStr.trim s)) = false →
      V2.applyMatchReplace rx lm e ln = .error (.matchNotFound ln s false)) ∧
    (¬jsTruthy e.strMatch → ∀ p, e.regexMatch = some p → p ≠ [] →
      rx p lm.content = none →
      V2.applyMatchReplace rx lm e ln = .error (.matchNotFound ln p true)) := by
  constructor
  · intro s hs hne h3 h4
    have htr : jsTruthy e.strMatch = true := by simp [jsTruthy, hs, hne]
    unfold V2.applyMatchReplace
    rw [if_neg (by simp [htr])]
    rw [if_pos (by simp [htr])]
    rw [hs]
    simp only [Option.getD_some]
    rw [if_pos (by simp [h3])]
    rw [if_pos (by simp [h4])]
  · intro hstr p hp hpne hrx
    have htr : jsTruthy e.regexMatch = true := by simp [jsTruthy, hp, hpne]
    unfold V2.applyMatchReplace
    rw [if_neg (by simp [htr])]
    rw [if_neg hstr]
    rw [if_pos (by simp [htr])]
    rw [hp]
    simp only [Option.getD_some]
    rw [if_pos (by simp [hrx])]

theorem c5_match_not_found_witness :
    V2.applyMatchReplace Rx.jsMatch ⟨("color = \"blue\"").data, [], 0⟩
        ⟨2, 2, ("red").data, some (("green").data), none⟩ 2 =
      .error (.matchNotFound 2 (("green").data) false) :=
  (c5_match_not_found Rx.jsMatch ⟨("color = \"blue\"").data, [], 0⟩
      ⟨2, 2, ("red").data, some (("green").data), none⟩ 2).1 (("green").data)
    rfl (by decide) (by decide) (by decide)

/-- C5 counterexample: the line `  foo` reconstructs to `indent + body`
containing the pattern `  f` (a match at index 0 of length 3), yet the
regex-conditioned replace throws `MatchNotFoundError` because the condition
is only tested against the trimmed body `foo`. -/
theorem c5_full_line_search_counterexample :
    V2.applyMatchReplace Rx.jsMatch ⟨("foo").data, ("  ").data, 0⟩
        ⟨1, 1, ("X").data, none, some (("  f").data)⟩ 1 =
      .error (.matchNotFound 1 (("  f").data) true) ∧
    Rx.jsMatch (("  f").data) ((("  ").data) ++ ("foo").data) = some (0, 3) ∧
    V2.editFile Rx.jsMatch ("  foo").data
        [⟨1, 1, ("X").data, none, some (("  f").data)⟩] =
      .error (("No regex match found for \"  f\" on line 1").data) :=
  ⟨by decide, by decide, by decide⟩

/-- C6 (amended): when the exact literal is not found, matching is retried
with whitespace runs collapsed to a single space, and the substitution is
performed against the original (uncollapsed) line text — but the regex
actually replaced is built from the *whole* collapsed line body
(`flexMatch`, with every whitespace run turned into `\s+`), not from the
matched target span, so the replacement swallows the entire trimmed body
rather than only the span of the requested match. -/
theorem c6_flexible_fallback (rx : Rx.Matcher) (lm : V2.LineMeta) (e : V2.Edit)
    (ln : Nat) (s : List Char) (hs : e.strMatch = some s) (hne : s ≠ [])
    (hdirect : JsStr.containsSub (JsStr.trim lm.content) (JsStr.trim s) = false)
    (hflex : JsStr.containsSub (JsStr.collapseWs (JsStr.trim lm.content))
      (JsStr.collapseWs (JsStr.trim s)) = true) :
    V2.applyMatchReplace rx lm e ln =
      .ok (lm.indentation ++
        JsStr.trimStart (Rx.replaceFirstWith rx
          (JsStr.wsToFlexPattern (JsStr.collapseWs (JsStr.trim lm.content)))
          lm.content e.content)) := by
  have htr : jsTruthy e.strMatch = true := by simp [jsTruthy, hs, hne]
  unfold V2.applyMatchReplace
  rw [if_neg (by simp [htr])]
  rw [if_pos (by simp [htr])]
  rw [hs]
  simp only [Option.getD_some]
  rw [if_pos (by simp [hdirect])]
  rw [if_neg (by simp [hflex])]

theorem c6_flexible_fallback_witness :
    V2.applyMatchReplace Rx.jsMatch ⟨("a  b c").data, [], 0⟩
        ⟨1, 1, ("X").data, some (("a b").data), none⟩ 1 =
      .ok (([] : List Char) ++
        JsStr.trimStart (Rx.replaceFirstWith Rx.jsMatch
          (JsStr.wsToFlexPattern (JsStr.collapseWs (JsStr.trim ("a  b c").data)))
          ("a  b c").data ("X").data)) :=
  c6_flexible_fallback Rx.jsMatch ⟨("a  b c").data, [], 0⟩
    ⟨1, 1, ("X").data, some (("a b").data), none⟩ 1 (("a b").data) rfl
    (by decide) (by decide) (by decide)

/-- C6 counterexample: on the line body `a  b c`, the request to replace the
flexible match `a b` with `X` yields the line `X` — the trailing ` c`
after the matched span is not preserved, because the replacement regex is
compiled from the whole collapsed body `a b c`. -/
theorem c6_span_preservation_counterexample :
    V2.applyMatchReplace Rx.jsMatch ⟨("a  b c").data, [], 0⟩
        ⟨1, 1, ("X").data, some (("a b").data), none⟩ 1 = .ok (("X").data) ∧
    V2.editFile Rx.jsMatch ("a  b c").data
        [⟨1, 1, ("X").data, some (("a b").data), none⟩] =
      .ok (("X").data, [(1, ⟨true, ("X").data⟩)]) ∧
    ("X").data ≠ ("X c").data :=
  ⟨by decide, by decide, by decide⟩

/-- C10: when the exact-string condition is found in the trimmed body, the
substitution compiles the trimmed match text into a global regex and
replaces every occurrence that regex matches in the line body; hence
metacharacters in the match string act as pattern syntax (on the body
`a.c axc`, the "exact" match `a.c` also rewrites `axc`) and all occurrences
are replaced, not just the first (`x y x` with match `x` becomes
`Q y Q`). -/
theorem c10_strmatch_global_regex :
    (∀ (rx : Rx.Matcher) (lm : V2.LineMeta) (e : V2.Edit) (ln : Nat)
      (s : List Char), e.strMatch = some s → s ≠ [] →
      JsStr.containsSub (JsStr.trim lm.content) (JsStr.trim s) = true →
      V2.applyMatchReplace rx lm e ln =
        .ok (lm.indentation ++
          JsStr.trimStart
            (Rx.replaceGlobalWith rx (JsStr.trim s) lm.content e.content))) ∧
    V2.applyMatchReplace Rx.jsMatch ⟨("a.c axc").data, [], 0⟩
        ⟨1, 1, ("Z").data, some (("a.c").data), none⟩ 1 = .ok (("Z Z").data) ∧
    V2.applyMatchReplace Rx.jsMatch ⟨("x y x").data, [], 0⟩
        ⟨1, 1, ("Q").data, some (("x").data), none⟩ 1 = .ok (("Q y Q").data) := by
  refine ⟨?_, by decide, by decide⟩
  intro rx lm e ln s hs hne hfound
  have htr : jsTruthy e.strMatch = true := by simp [jsTruthy, hs, hne]
  unfold V2.applyMatchReplace
  rw [if_neg (by simp [htr])]
  rw [if_pos (by simp [htr])]
  rw [hs]
  simp only [Option.getD_some]
  rw [if_neg (by simp [hfound])]

theorem c10_strmatch_global_regex_witness :
    V2.applyMatchReplace Rx.jsMatch ⟨("a.c axc").data, [], 0⟩
        ⟨1, 1, ("Z").data, some (("a.c").data), none⟩ 1 =
      .ok (([] : List Char) ++
        JsStr.trimStart (Rx.replaceGlobalWith Rx.jsMatch
          (JsStr.trim (("a.c").data)) ("a.c axc").data ("Z").data)) :=
  c10_strmatch_global_regex.1 Rx.jsMatch ⟨("a.c axc").data, [], 0⟩
    ⟨1, 1, ("Z").data, some (("a.c").data), none⟩ 1 (("a.c").data) rfl
    (by decide) (by decide)

theorem mapGet_filter_none {κ β : Type} [DecidableEq κ]
    (p : κ × β → Bool) (m : List (κ × β)) (k : κ) (h : mapGet m k = none) :
    mapGet (m.filter p) k = none := by
  induction m with
  | nil => rfl
  | cons kv t ih =>
    obtain ⟨k', v⟩ := kv
    unfold mapGet at h
    by_cases hk : k' = k
    · rw [if_pos hk] at h
      cases h
    · rw [if_neg hk] at h
      rw [List.filter_cons]
      split
      · unfold mapGet
        rw [if_neg hk]
        exact ih h
      · exact ih h

theorem mapGet_mapErase_self {κ β : Type} [DecidableEq κ]
    (m : List (κ × β)) (k : κ) : mapGet (mapErase m k) k = none := by
  induction m with
  | nil => rfl
  | cons kv t ih =>
    obtain ⟨k', v⟩ := kv
    unfold mapErase at ih ⊢
    rw [List.filter_cons]
    split
    · rename_i hcond
      simp only [decide_eq_true_eq] at hcond
      unfold mapGet
      rw [if_neg hcond]
      exact ih
    · exact ih

theorem mapGet_none_of_not_mem {κ β : Type} [DecidableEq κ]
    (m : List (κ × β)) (k : κ) (h : k ∉ m.map Prod.fst) :
    mapGet m k = none := by
  induction m with
  | nil => rfl
  | cons kv t ih =>
    obtain ⟨k', v⟩ := kv
    simp only [List.map_cons, List.mem_cons] at h
    push_neg at h
    unfold mapGet
    rw [if_neg (fun hk => h.1 hk.symm)]
    exact ih h.2

theorem mapGet_cleanup_expired {ttl now : Nat} {m : SM.SMap} {k : List Char}
    {st : SM.EditState} (hnodup : (m.map Prod.fst).Nodup)
    (hget : mapGet m k = some st) (hexp : now - st.timestamp > ttl) :
    mapGet (SM.cleanup ttl now m) k = none := by
  induction m with
  | nil => cases hget
  | cons kv t ih =>
    obtain ⟨k', v⟩ := kv
    simp only [List.map_cons, List.nodup_cons] at hnodup
    unfold mapGet at hget
    unfold SM.cleanup
    rw [List.filter_cons]
    by_cases hk : k' = k
    · rw [if_pos hk] at hget
      injection hget with hv
      subst hv
      split
      · rename_i hcond
        simp only [Bool.not_eq_true', decide_eq_false_iff_not] at hcond
        exact absurd hexp hcond
      · have hnm : k ∉ t.map Prod.fst := hk ▸ hnodup.1
        exact mapGet_filter_none _ t k (mapGet_none_of_not_mem t k hnm)
    · rw [if_neg hk] at hget
      split
      · unfold mapGet
        rw [if_neg hk]
        exact ih hnodup.2 hget
      · exact ih hnodup.2 hget

theorem getState_some_inv {ttl now : Nat} {m : SM.SMap} {id : List Char}
    {st : SM.EditState} (h : (SM.getState ttl now m id).1 = some st) :
    SM.getState ttl now m id = (some st, SM.cleanup ttl now m) ∧
    mapGet (SM.cleanup ttl now m) id = some st ∧ now - st.timestamp ≤ ttl := by
  unfold SM.getState at h ⊢
  cases hg : mapGet (SM.cleanup ttl now m) id with
  | none =>
    rw [hg] at h
    cases h
  | some st0 =>
    rw [hg] at h
    by_cases hf : now - st0.timestamp ≤ ttl
    · simp only [if_pos hf] at h
      injection h with h2
      subst h2
      simp only [if_pos hf]
      exact ⟨trivial, trivial, hf⟩
    · simp only [if_neg hf] at h
      cases h

/-- C7: an approval with an unknown or expired fingerprint fails with the
`Invalid or expired state ID` error; a fresh entry is re-applied through
the apply pipeline against the current file content, and the cache entry
is deleted only after a successful application — so a second approval with
the same fingerprint fails — while a failed application leaves the entry
intact for retry. -/
theorem c7_approve_edit
    (apply : List Char → List SM.TEdit → Except (List Char) (List Char))
    (ttl now : Nat) (m : SM.SMap) (id : List Char) :
    ((SM.getState ttl now m id).1 = none →
      (SM.approveEdit apply ttl now m id).1 =
        .error (("Invalid or expired state ID").data)) ∧
    (∀ st, mapGet m id = some st → (m.map Prod.fst).Nodup →
      now - st.timestamp > ttl →
      (SM.getState ttl now m id).1 = none) ∧
    (∀ st, (SM.getState ttl now m id).1 = some st →
      ∀ r, apply st.path st.edits = .ok r →
        (SM.approveEdit apply ttl now m id).1 = .ok r ∧
        mapGet (SM.approveEdit apply ttl now m id).2 id = none ∧
        (SM.approveEdit apply ttl now
            (SM.approveEdit apply ttl now m id).2 id).1 =
          .error (("Invalid or expired state ID").data)) ∧
    (∀ st, (SM.getState ttl now m id).1 = some st →
      ∀ msg, apply st.path st.edits = .error msg →
        SM.approveEdit apply ttl now m id =
          (.error msg, SM.cleanup ttl now m) ∧
        mapGet (SM.cleanup ttl now m) id = some st) := by
  refine ⟨?_, ?_, ?_, ?_⟩
  · intro hnone
    unfold SM.approveEdit
    rcases hgs : SM.getState ttl now m id with ⟨o, m'⟩
    rw [hgs] at hnone
    simp only at hnone
    subst hnone
    rfl
  · intro st hget hnodup hexp
    unfold SM.getState
    rw [mapGet_cleanup_expired hnodup hget hexp]
  · intro st hsome r hok
    obtain ⟨hgs, hget', hfresh⟩ := getState_some_inv hsome
    have happ : SM.approveEdit apply ttl now m id =
        (.ok r, SM.deleteState ttl now (SM.cleanup ttl now m) id) := by
      unfold SM.approveEdit
      rw [hgs]
      simp only [hok]
    refine ⟨by rw [happ], ?_, ?_⟩
    · rw [happ]
      unfold SM.deleteState
      exact mapGet_mapErase_self _ _
    · rw [happ]
      have hg2 : mapGet (SM.cleanup ttl now
          (SM.deleteState ttl now (SM.cleanup ttl now m) id)) id = none := by
        unfold SM.deleteState
        exact mapGet_filter_none _ _ _ (mapGet_mapErase_self _ _)
      unfold SM.approveEdit SM.getState
      rw [hg2]
  · intro st hsome msg herr
    obtain ⟨hgs, hget', hfresh⟩ := getState_some_inv hsome
    have happ : SM.approveEdit apply ttl now m id =
        (.error msg, SM.cleanup ttl now m) := by
      unfold SM.approveEdit
      rw [hgs]
      simp only [herr]
    exact ⟨happ, hget'⟩

theorem c7_approve_edit_witness :
    ((SM.approveEdit (fun _ _ => .ok (("diff").data)) 60000 1000
        [(("abcd1234").data,
          ⟨("f.txt").data, [⟨1, 1, ("a").data, ("b").data⟩], 500⟩)]
        (("abcd1234").data)).1 = .ok (("diff").data)) ∧
    ((SM.approveEdit (fun _ _ => .ok (("diff").data)) 60000 1000
        (SM.approveEdit (fun _ _ => .ok (("diff").data)) 60000 1000
          [(("abcd1234").data,
            ⟨("f.txt").data, [⟨1, 1, ("a").data, ("b").data⟩], 500⟩)]
          (("abcd1234").data)).2 (("abcd1234").data)).1 =
      .error (("Invalid or expired state ID").data)) ∧
    JsStr.containsSub (("Invalid or expired state ID").data)
      (("Invalid or expired state").data) = true :=
  ⟨((c7_approve_edit (fun _ _ => .ok (("diff").data)) 60000 1000
      [(("abcd1234").data,
        ⟨("f.txt").data, [⟨1, 1, ("a").data, ("b").data⟩], 500⟩)]
      (("abcd1234").data)).2.2.1
      ⟨("f.txt").data, [⟨1, 1, ("a").data, ("b").data⟩], 500⟩ (by decide)
      (("diff").data) rfl).1,
   ((c7_approve_edit (fun _ _ => .ok (("diff").data)) 60000 1000
      [(("abcd1234").data,
        ⟨("f.txt").data, [⟨1, 1, ("a").data, ("b").data⟩], 500⟩)]
      (("abcd1234").data)).2.2.1
      ⟨("f.txt").data, [⟨1, 1, ("a").data, ("b").data⟩], 500⟩ (by decide)
      (("diff").data) rfl).2.2,
   by decide⟩

theorem mapGet_mapSet_self {κ β : Type} [DecidableEq κ]
    (m : List (κ × β)) (k : κ) (v : β) : mapGet (mapSet m k v) k = some v := by
  induction m with
  | nil =>
    unfold mapSet mapGet
    rw [if_pos rfl]
  | cons kv t ih =>
    obtain ⟨k', v'⟩ := kv
    unfold mapSet
    by_cases hk : k' = k
    · rw [if_pos hk]
      unfold mapGet
      rw [if_pos rfl]
    · rw [if_neg hk]
      unfold mapGet
      rw [if_neg hk]
      exact ih

theorem countKey_mapSet {κ β : Type} [DecidableEq κ]
    (m : List (κ × β)) (k : κ) (v : β) :
    countKey (mapSet m k v) k = max (countKey m k) 1 := by
  induction m with
  | nil => simp [mapSet, countKey]
  | cons kv t ih =>
    obtain ⟨k', v'⟩ := kv
    unfold mapSet
    by_cases hk : k' = k
    · rw [if_pos hk]
      unfold countKey
      rw [List.filter_cons, List.filter_cons]
      simp only [hk, decide_True, if_pos]
      simp only [List.length_cons]
      omega
    · rw [if_neg hk]
      unfold countKey at ih ⊢
      rw [List.filter_cons]
      split
      · rename_i hcond
        simp only [decide_eq_true_eq] at hcond
        exact absurd hcond hk
      · rw [List.filter_cons]
        split
        · rename_i hcond
          simp only [decide_eq_true_eq] at hcond
          exact absurd hcond hk
        · exact ih

theorem countKey_filter_le {κ β : Type} [DecidableEq κ]
    (p : κ × β → Bool) (m : List (κ × β)) (k : κ) :
    countKey (m.filter p) k ≤ countKey m k := by
  unfold countKey
  exact ((List.filter_sublist m).filter _).length_le

/-- C8: the state fingerprint depends only on the `(path, edits)` pair —
saving again with the same arguments returns the same 8-character id and
overwrites the single entry stored under it (the refreshed timestamp
replaces the old one; no second entry appears). -/
theorem c8_fingerprint_deterministic (hash : List Char → List Char)
    (hlen : ∀ s, (hash s).length = 64) (ttl now1 now2 : Nat) (m : SM.SMap)
    (path : List Char) (edits : List SM.TEdit)
    (hone : countKey m (SM.generateStateId hash path edits) ≤ 1) :
    (SM.saveState hash ttl now1 m path edits).1 =
      SM.generateStateId hash path edits ∧
    (SM.saveState hash ttl now2 (SM.saveState hash ttl now1 m path edits).2
        path edits).1 = (SM.saveState hash ttl now1 m path edits).1 ∧
    (SM.saveState hash ttl now1 m path edits).1.length = 8 ∧
    mapGet (SM.saveState hash ttl now2
        (SM.saveState hash ttl now1 m path edits).2 path edits).2
      (SM.generateStateId hash path edits) = some ⟨path, edits, now2⟩ ∧
    countKey (SM.saveState hash ttl now2
        (SM.saveState hash ttl now1 m path edits).2 path edits).2
      (SM.generateStateId hash path edits) = 1 := by
  refine ⟨rfl, rfl, ?_, ?_, ?_⟩
  · show (SM.generateStateId hash path edits).length = 8
    unfold SM.generateStateId
    rw [List.length_take, hlen]
    rfl
  · exact mapGet_mapSet_self _ _ _
  · show countKey (mapSet (SM.cleanup ttl now2
        (mapSet (SM.cleanup ttl now1 m) (SM.generateStateId hash path edits)
          ⟨path, edits, now1⟩)) (SM.generateStateId hash path edits)
        ⟨path, edits, now2⟩) (SM.generateStateId hash path edits) = 1
    rw [countKey_mapSet]
    have h1 : countKey (SM.cleanup ttl now1 m)
        (SM.generateStateId hash path edits) ≤ 1 :=
      le_trans (countKey_filter_le _ _ _) hone
    have h2 : countKey (mapSet (SM.cleanup ttl now1 m)
        (SM.generateStateId hash path edits) ⟨path, edits, now1⟩)
        (SM.generateStateId hash path edits) = 1 := by
      rw [countKey_mapSet]
      omega
    have h3 : countKey (SM.cleanup ttl now2
        (mapSet (SM.cleanup ttl now1 m) (SM.generateStateId hash path edits)
          ⟨path, edits, now1⟩)) (SM.generateStateId hash path edits) ≤ 1 := by
      calc countKey _ _ ≤ _ := countKey_filter_le _ _ _
        _ = 1 := h2
    omega

theorem c8_fingerprint_deterministic_witness :
    (SM.saveState (fun _ => List.replicate 64 'e') 60000 5 [] (("f.txt").data)
        [⟨1, 1, ("a").data, ("b").data⟩]).1 =
      (SM.saveState (fun _ => List.replicate 64 'e') 60000 9
        (SM.saveState (fun _ => List.replicate 64 'e') 60000 5 []
          (("f.txt").data) [⟨1, 1, ("a").data, ("b").data⟩]).2
        (("f.txt").data) [⟨1, 1, ("a").data, ("b").data⟩]).1 ∧
    countKey (SM.saveState (fun _ => List.replicate 64 'e') 60000 9
        (SM.saveState (fun _ => List.replicate 64 'e') 60000 5 []
          (("f.txt").data) [⟨1, 1, ("a").data, ("b").data⟩]).2
        (("f.txt").data) [⟨1, 1, ("a").data, ("b").data⟩]).2
      (SM.generateStateId (fun _ => List.replicate 64 'e') (("f.txt").data)
        [⟨1, 1, ("a").data, ("b").data⟩]) = 1 :=
  ⟨((c8_fingerprint_deterministic (fun _ => List.replicate 64 'e')
      (fun s => by simp) 60000 5 9 [] (("f.txt").data)
      [⟨1, 1, ("a").data, ("b").data⟩] (by decide)).2.1).symm,
   (c8_fingerprint_deterministic (fun _ => List.replicate 64 'e')
      (fun s => by simp) 60000 5 9 [] (("f.txt").data)
      [⟨1, 1, ("a").data, ("b").data⟩] (by decide)).2.2.2.2⟩
theorem addEdit_delete_inrange (compiles : V1.RegexCompiles) (st : V1.EState)
    (n : Nat) (hn1 : 1 ≤ n) (hn2 : n ≤ st.lines.length) :
    V1.addEdit compiles st (V1.deleteEdit n) =
      .ok { st with editsToApply := st.editsToApply ++ [V1.deleteEdit n] } := by
  unfold V1.addEdit
  have hoor : (decide (n ≤ 0) || decide (n > st.lines.length)) = false := by
    simp only [Bool.or_eq_false_iff, decide_eq_false_iff_not]
    omega
  simp [V1.deleteEdit, V1.hasLegacyFields, jsTruthy, hoor]
  exact ⟨by omega, hn2⟩

/-- The FAILED record stored for an out-of-range line number. -/
theorem addEdit_delete_outofrange (compiles : V1.RegexCompiles) (st : V1.EState)
    (k : Nat) (hk : k > st.lines.length) :
    V1.addEdit compiles st (V1.deleteEdit k) =
      .ok { st with
        results :=
          mapSet st.results k
            ⟨k, .FAILED,
              ("Line number ").data ++ JsStr.natChars k ++
                (" is out of range (1-").data ++
                JsStr.natChars st.lines.length ++ (").").data⟩ } := by
  unfold V1.addEdit
  have hoor : (decide (k ≤ 0) || decide (k > st.lines.length)) = true := by
    simp only [Bool.or_eq_true, decide_eq_true_eq]
    omega
  simp [V1.deleteEdit, V1.hasLegacyFields, jsTruthy, hoor]
  omega

theorem buildAux_length (chunks : List (List Char)) (b : Int) :
    (V1.buildAux b chunks).length = chunks.length := by
  induction chunks generalizing b with
  | nil => rfl
  | cons c cs ih => simp [V1.buildAux, ih]

theorem buildAux_get (chunks : List (List Char)) :
    ∀ (b : Int) (j : Nat) (hj : j < (V1.buildAux b chunks).length),
      ((V1.buildAux b chunks).get ⟨j, hj⟩).originalIndex = b + j ∧
      ((V1.buildAux b chunks).get ⟨j, hj⟩).isDeleted = false := by
  induction chunks with
  | nil =>
    intro b j hj
    simp [V1.buildAux] at hj
  | cons c cs ih =>
    intro b j hj
    cases j with
    | zero => simp [V1.buildAux]
    | succ j' =>
      have hj' : j' < (V1.buildAux (b + 1) cs).length := by
        simp only [V1.buildAux, List.length_cons] at hj
        omega
      have hih := ih (b + 1) j' hj'
      simp only [V1.buildAux, List.get_cons_succ]
      refine ⟨?_, hih.2⟩
      rw [hih.1]
      push_cast
      ring

theorem listFindIdx_buildAux (chunks : List (List Char)) :
    ∀ (b t : Int), b ≤ t → (t - b).toNat < chunks.length →
      listFindIdx (fun l => l.originalIndex = t && !l.isDeleted)
        (V1.buildAux b chunks) = some (t - b).toNat := by
  induction chunks with
  | nil =>
    intro b t hbt hlt
    simp at hlt
  | cons c cs ih =>
    intro b t hbt hlt
    unfold V1.buildAux listFindIdx
    by_cases heq : b = t
    · subst heq
      simp
    · have hlt' : (t - (b + 1)).toNat < cs.length := by
        simp only [List.length_cons] at hlt
        omega
      rw [ih (b + 1) t (by omega) hlt']
      simp only [Option.map_some]
      simp [heq]
      omega

theorem listFindIdx_none_of_get {α : Type} (p : α → Bool) (l : List α)
    (h : ∀ (j : Nat) (hj : j < l.length), p (l.get ⟨j, hj⟩) = false) :
    listFindIdx p l = none := by
  induction l with
  | nil => rfl
  | cons x xs ih =>
    have h0 : p x = false := h 0 (by simp)
    have hrest : listFindIdx p xs = none :=
      ih (fun j hj => h (j + 1) (by simpa using Nat.succ_lt_succ hj))
    unfold listFindIdx
    simp [h0, hrest]

theorem get_set_general {α : Type} (l : List α) :
    ∀ (i j : Nat) (v : α) (hj : j < (l.set i v).length) (hj' : j < l.length),
      (l.set i v).get ⟨j, hj⟩ = if i = j then v else l.get ⟨j, hj'⟩ := by
  induction l with
  | nil =>
    intro i j v hj hj'
    simp at hj'
  | cons x xs ih =>
    intro i j v hj hj'
    cases i with
    | zero =>
      cases j with
      | zero => simp [List.set]
      | succ j' => simp [List.set]
    | succ i' =>
      cases j with
      | zero => simp [List.set]
      | succ j' =>
        simp only [List.set, List.get_cons_succ]
        rw [ih i' j' v (by simpa using hj) (by simpa using hj')]
        simp

theorem applyStep_delete (origLen : Nat) (ml : List V1.LineMeta)
    (res : List (Nat × V1.R1)) (n : Nat) :
    V1.applyStep origLen (ml, res) (V1.deleteEdit n) =
      (match listFindIdx
          (fun l => l.originalIndex = (n : Int) - 1 && !l.isDeleted) ml with
       | some i =>
         (ml.set i { ml.getD i V1.defaultMeta with isDeleted := true },
          mapSet res n ⟨n, .APPLIED, ("Line deleted.").data⟩)
       | none =>
         (ml, mapSet res n ⟨n, .SKIPPED,
           ("Line already deleted or not found.").data⟩)) := rfl

theorem build_find_first (content : List Char) (n : Nat) (hn1 : 1 ≤ n)
    (hn2 : n ≤ (V1.buildLines content).length) :
    listFindIdx (fun l => l.originalIndex = (n : Int) - 1 && !l.isDeleted)
      (V1.buildLines content) = some (n - 1) := by
  unfold V1.buildLines at hn2 ⊢
  rw [buildAux_length] at hn2
  have h := listFindIdx_buildAux
    (JsStr.splitNl (JsStr.normalizeLineEndings content)) 0 ((n : Int) - 1)
    (by omega) (by omega)
  rw [h]
  congr 1
  omega

theorem build_alive_none_after (content : List Char) (n : Nat) :
    listFindIdx (fun l => l.originalIndex = (n : Int) - 1 && !l.isDeleted)
      ((V1.buildLines content).set (n - 1)
        { (V1.buildLines content).getD (n - 1) V1.defaultMeta with
          isDeleted := true }) = none := by
  apply listFindIdx_none_of_get
  intro j hj
  have hj' : j < (V1.buildLines content).length := by
    simpa using hj
  rw [get_set_general _ _ _ _ _ hj']
  by_cases hij : n - 1 = j
  · rw [if_pos hij]
    simp
  · rw [if_neg hij]
    have hg := buildAux_get (JsStr.splitNl (JsStr.normalizeLineEndings content)) 0 j
      (by simpa [V1.buildLines] using hj')
    unfold V1.buildLines
    rw [show ((0 : Int) + j) = (j : Int) from by omega] at hg
    simp only [hg.1, hg.2, Bool.not_false, Bool.and_true, decide_eq_false_iff_not]
    intro hc
    apply hij
    omega

/-- C9 (amended): a delete_line request whose target line was already
removed by an earlier edit of the same batch records a SKIPPED outcome; an
out-of-range delete_line request, however, is rejected during `addEdit`
with a FAILED outcome naming the valid range, before the apply phase ever
sees it. -/
theorem c9_delete_line_outcomes (compiles : V1.RegexCompiles)
    (content : List Char) (n k : Nat) (hn1 : 1 ≤ n)
    (hn2 : n ≤ (V1.buildLines content).length)
    (hk : k > (V1.buildLines content).length) :
    (∃ out, V1.runEdits compiles content [V1.deleteEdit n, V1.deleteEdit n] =
        .ok out ∧
      mapGet out.2 n =
        some ⟨n, .SKIPPED, ("Line already deleted or not found.").data⟩) ∧
    (∃ out, V1.runEdits compiles content [V1.deleteEdit k] = .ok out ∧
      mapGet out.2 k =
        some ⟨k, .FAILED,
          ("Line number ").data ++ JsStr.natChars k ++
            (" is out of range (1-").data ++
            JsStr.natChars (V1.buildLines content).length ++ (").").data⟩) := by
  constructor
  · have h1' : V1.addEdit compiles ⟨V1.buildLines content, [], []⟩
        (V1.deleteEdit n) =
        .ok ⟨V1.buildLines content, [V1.deleteEdit n], []⟩ :=
      addEdit_delete_inrange compiles ⟨V1.buildLines content, [], []⟩ n hn1 hn2
    have h2' : V1.addEdit compiles
        ⟨V1.buildLines content, [V1.deleteEdit n], []⟩ (V1.deleteEdit n) =
        .ok ⟨V1.buildLines content, [V1.deleteEdit n, V1.deleteEdit n], []⟩ :=
      addEdit_delete_inrange compiles
        ⟨V1.buildLines content, [V1.deleteEdit n], []⟩ n hn1 hn2
    have hadd : V1.addEdits compiles ⟨V1.buildLines content, [], []⟩
        [V1.deleteEdit n, V1.deleteEdit n] =
        .ok ⟨V1.buildLines content, [V1.deleteEdit n, V1.deleteEdit n], []⟩ := by
      unfold V1.addEdits
      rw [h1']
      show V1.addEdits compiles ⟨V1.buildLines content, [V1.deleteEdit n], []⟩
        [V1.deleteEdit n] = _
      unfold V1.addEdits
      rw [h2']
      rfl
    have hfold :
        (([V1.deleteEdit n, V1.deleteEdit n]).foldl
          (V1.applyStep (V1.buildLines content).length)
          (V1.buildLines content, [])).2 =
        mapSet (mapSet [] n ⟨n, .APPLIED, ("Line deleted.").data⟩) n
          ⟨n, .SKIPPED, ("Line already deleted or not found.").data⟩ := by
      simp only [List.foldl_cons, List.foldl_nil, applyStep_delete,
        build_find_first content n hn1 hn2, build_alive_none_after content n]
    refine ⟨V1.applyEdits ⟨V1.buildLines content,
      [V1.deleteEdit n, V1.deleteEdit n], []⟩, ?_, ?_⟩
    · unfold V1.runEdits
      simp only []
      rw [hadd]
    · show mapGet (V1.applyEdits ⟨V1.buildLines content,
        [V1.deleteEdit n, V1.deleteEdit n], []⟩).2 n = _
      have hres : (V1.applyEdits ⟨V1.buildLines content,
          [V1.deleteEdit n, V1.deleteEdit n], []⟩).2 =
          mapSet (mapSet [] n ⟨n, .APPLIED, ("Line deleted.").data⟩) n
            ⟨n, .SKIPPED, ("Line already deleted or not found.").data⟩ := by
        unfold V1.applyEdits
        exact hfold
      rw [hres]
      exact mapGet_mapSet_self _ _ _
  · have h3 : V1.addEdit compiles ⟨V1.buildLines content, [], []⟩
        (V1.deleteEdit k) =
        .ok ⟨V1.buildLines content, [],
          mapSet [] k ⟨k, .FAILED,
            ("Line number ").data ++ JsStr.natChars k ++
              (" is out of range (1-").data ++
              JsStr.natChars (V1.buildLines content).length ++ (").").data⟩⟩ :=
      addEdit_delete_outofrange compiles ⟨V1.buildLines content, [], []⟩ k hk
    have hadd2 : V1.addEdits compiles ⟨V1.buildLines content, [], []⟩
        [V1.deleteEdit k] =
        .ok ⟨V1.buildLines content, [],
          mapSet [] k ⟨k, .FAILED,
            ("Line number ").data ++ JsStr.natChars k ++
              (" is out of range (1-").data ++
              JsStr.natChars (V1.buildLines content).length ++ (").").data⟩⟩ := by
      unfold V1.addEdits
      rw [h3]
      rfl
    refine ⟨V1.applyEdits ⟨V1.buildLines content, [],
      mapSet [] k ⟨k, .FAILED,
        ("Line number ").data ++ JsStr.natChars k ++
          (" is out of range (1-").data ++
          JsStr.natChars (V1.buildLines content).length ++ (").").data⟩⟩,
      ?_, ?_⟩
    · unfold V1.runEdits
      simp only []
      rw [hadd2]
    · exact mapGet_mapSet_self _ _ _

theorem c9_delete_line_outcomes_witness :
    ∃ out, V1.runEdits (fun _ => true) ("a\nb\nc").data
        [V1.deleteEdit 2, V1.deleteEdit 2] = .ok out ∧
      mapGet out.2 2 =
        some ⟨2, .SKIPPED, ("Line already deleted or not found.").data⟩ :=
  (c9_delete_line_outcomes (fun _ => true) ("a\nb\nc").data 2 5 (by decide)
    (by decide) (by decide)).1

/-- C9 counterexample: a delete_line aimed past the end of the file records
a FAILED out-of-range outcome, not the claimed SKIPPED. -/
theorem c9_outofrange_failed_counterexample :
    (V1.runEdits (fun _ => true) ("a\nb").data [V1.deleteEdit 5]).map
        (fun r => mapGet r.2 5) =
      .ok (some ⟨5, .FAILED, ("Line number 5 is out of range (1-2).").data⟩) ∧
    V1.Status.FAILED ≠ V1.Status.SKIPPED :=
  ⟨by decide, by decide⟩
